import Mathlib

/-!
Mandelbrot escape-time kernel and dense matrix multiply.

A shallow embedding of `mandelbrot_openmp.c` and `matmul_openmp.c`.

Conventions of the embedding.

* C `double` is a type parameter `α`.  The definitions only ask for the
  operations the source uses (`+`, `-`, `*`, `/`, conversion from an integer,
  the literals `0`, `2`, `4.0` and the comparison `<`); no algebraic law is
  assumed by a definition.  A theorem that needs laws states them, either as
  a class (`LinearOrderedField α`: exact arithmetic, for instance `ℚ`) or as
  explicit hypotheses.
* The counter `iter` of `cal_pixel` is an integer that never exceeds 255.
* In the matrix benchmark a C `int` is a 32-bit two's-complement integer:
  the products and sums of the index expressions `i*n+j` and of the bound
  `n*n` go through `imul` and `iadd`, which reduce the exact result modulo
  `2^32` into `[-2^31, 2^31)`.  The argument of `malloc` is computed on a
  64-bit `size_t`, modulo `2^64`.
* A pointer is the name of a heap block or `NULL`.  `malloc` takes the
  allocator's answer as a parameter, `NULL` when the allocation fails; a read
  or a write through `NULL` or outside the block is a failed run (`none`).
* `#pragma omp` loops are read as their sequential loop nest, rows in
  increasing order.
-/

namespace Mandelbrot

/-- `#define WIDTH 640`. -/
def WIDTH : Nat := 640

/-- `#define HEIGHT 480`. -/
def HEIGHT : Nat := 480

/-- `#define MAX_ITER 255`. -/
def MAX_ITER : Int := 255

/-- `struct complex { double real; double imag; }`. -/
structure complex (α : Type) where
  real : α
  imag : α

section ops

variable {α : Type} [Zero α] [Add α] [Sub α] [Mul α] [Div α] [NatCast α]
  [OfNat α 2] [OfNat α 4] [LT α] [DecidableRel (α := α) (· < ·)]

/-- The `do { ... } while ((iter < MAX_ITER) && (lengthsq < 4.0))` loop of
`cal_pixel`, entered with the current `z_real`, `z_imag` and `iter`.  One
unfolding is one pass of the body followed by the loop test. -/
def cal_pixel_loop (c : complex α) (z_real z_imag : α) (iter : Int) : Int :=
  let z_real2 := z_real * z_real
  let z_imag2 := z_imag * z_imag
  let z_imag' := 2 * z_real * z_imag + c.imag
  let z_real' := z_real2 - z_imag2 + c.real
  let lengthsq := z_real2 + z_imag2
  let iter' := iter + 1
  if iter' < MAX_ITER ∧ lengthsq < 4 then cal_pixel_loop c z_real' z_imag' iter' else iter'
termination_by (MAX_ITER - iter).toNat
decreasing_by
  simp_wf
  omega

/-- `int cal_pixel(struct complex c)`: `z_real = 0`, `z_imag = 0`, `iter = 0`,
then the do-while loop; returns `iter`. -/
def cal_pixel (c : complex α) : Int :=
  cal_pixel_loop c 0 0 0

/-- The do-while loop of `cal_pixel` run with a budget of `fuel` passes of
its body and a count `passes` of the passes executed so far:
`some (iter, passes)` when the loop exits within the budget, `none` when the
budget runs out while the loop would go on. -/
def cal_pixel_steps (c : complex α) : Nat → α → α → Int → Nat → Option (Int × Nat)
  | 0, _, _, _, _ => none
  | fuel + 1, z_real, z_imag, iter, passes =>
    let z_real2 := z_real * z_real
    let z_imag2 := z_imag * z_imag
    let z_imag' := 2 * z_real * z_imag + c.imag
    let z_real' := z_real2 - z_imag2 + c.real
    let lengthsq := z_real2 + z_imag2
    let iter' := iter + 1
    if iter' < MAX_ITER ∧ lengthsq < 4 then
      cal_pixel_steps c fuel z_real' z_imag' iter' (passes + 1)
    else some (iter', passes + 1)

/-- The coordinate assigned to pixel `(i, j)` in `main`:
`c.real = (j - WIDTH / 2.0) * 4.0 / WIDTH`,
`c.imag = (i - HEIGHT / 2.0) * 4.0 / HEIGHT`. -/
def pixel_coord (i j : Nat) : complex α :=
  { real := ((j : α) - (WIDTH : α) / 2) * 4 / (WIDTH : α)
    imag := ((i : α) - (HEIGHT : α) / 2) * 4 / (HEIGHT : α) }

/-- The array `int image[HEIGHT][WIDTH]` of `main`, cell `image[i][j]` being
`image i j`, together with a ghost log `writes` that records the index pair
of every assignment to a cell, oldest first. -/
structure Grid where
  image : Nat → Nat → Int
  writes : List (Nat × Nat)

/-- The assignment `image[i][j] = v`. -/
def Grid.store (g : Grid) (i j : Nat) (v : Int) : Grid :=
  { image := fun a b => if a = i ∧ b = j then v else g.image a b
    writes := g.writes ++ [(i, j)] }

/-- `for (x = 0; x < n; x++) body`, on a state of type `σ`. -/
def forLoop {σ : Type} (n : Nat) (body : Nat → σ → σ) (s : σ) : σ :=
  (List.range n).foldl (fun s x => body x s) s

/-- The inner loop of the grid fill for row `i`:
`for (j = 0; j < WIDTH; j++) { c = ...; image[i][j] = cal_pixel(c); }`. -/
def fill_row (α : Type) [Zero α] [Add α] [Sub α] [Mul α] [Div α] [NatCast α]
    [OfNat α 2] [OfNat α 4] [LT α] [DecidableRel (α := α) (· < ·)] (i : Nat) (g : Grid) : Grid :=
  forLoop WIDTH (fun j g => g.store i j (cal_pixel (pixel_coord i j : complex α))) g

/-- The grid-fill loop nest of `main`:
`for (i = 0; i < HEIGHT; i++) for (j = 0; j < WIDTH; j++) ...`. -/
def grid_fill (α : Type) [Zero α] [Add α] [Sub α] [Mul α] [Div α] [NatCast α]
    [OfNat α 2] [OfNat α 4] [LT α] [DecidableRel (α := α) (· < ·)] (g : Grid) : Grid :=
  forLoop HEIGHT (fun i g => fill_row α i g) g

/-- Index pairs of an `h` by `w` grid in the order the loop nest visits them:
row by row, each row left to right. -/
def scanOrder (w : Nat) : Nat → List (Nat × Nat)
  | 0 => []
  | h + 1 => scanOrder w h ++ (List.range w).map (fun j => (h, j))

/-- The values of `z_real` and `z_imag` after `k` passes of the loop body of
`cal_pixel`, computed with the operations of the source in the order of the
source: `z_real = 0`, `z_imag = 0` at entry, and one pass assigns
`z_imag = 2 * z_real * z_imag + c.imag` and
`z_real = z_real * z_real - z_imag * z_imag + c.real` from the old values. -/
def orbit (c : complex α) : Nat → complex α
  | 0 => { real := 0, imag := 0 }
  | k + 1 =>
    { real := (orbit c k).real * (orbit c k).real - (orbit c k).imag * (orbit c k).imag + c.real
      imag := 2 * (orbit c k).real * (orbit c k).imag + c.imag }

/-- The value `lengthsq = z_real2 + z_imag2` a pass entered with `z` computes,
with `z_real2 = z_real * z_real` and `z_imag2 = z_imag * z_imag`. -/
def lengthsq (z : complex α) : α :=
  z.real * z.real + z.imag * z.imag

end ops

/-- An arithmetic with a NaN: a value is a rational number or `nan`.  Every
operation with a `nan` operand yields `nan` and every comparison with a `nan`
operand is false, as for the NaN of a C `double`. -/
inductive QNaN where
  | nan : QNaN
  | num : ℚ → QNaN

/-- Addition, `nan` when an operand is. -/
def QNaN.add : QNaN → QNaN → QNaN
  | .num a, .num b => .num (a + b)
  | _, _ => .nan

/-- Subtraction, `nan` when an operand is. -/
def QNaN.sub : QNaN → QNaN → QNaN
  | .num a, .num b => .num (a - b)
  | _, _ => .nan

/-- Multiplication, `nan` when an operand is. -/
def QNaN.mul : QNaN → QNaN → QNaN
  | .num a, .num b => .num (a * b)
  | _, _ => .nan

/-- The comparison `<`, false when an operand is `nan`. -/
def QNaN.lt : QNaN → QNaN → Prop
  | .num a, .num b => a < b
  | _, _ => False

/-- The comparison `<=`, false when an operand is `nan`. -/
def QNaN.le : QNaN → QNaN → Prop
  | .num a, .num b => a ≤ b
  | _, _ => False

instance : Zero QNaN := ⟨.num 0⟩

instance : OfNat QNaN 2 := ⟨.num 2⟩

instance : OfNat QNaN 4 := ⟨.num 4⟩

instance : Add QNaN := ⟨QNaN.add⟩

instance : Sub QNaN := ⟨QNaN.sub⟩

instance : Mul QNaN := ⟨QNaN.mul⟩

instance : LT QNaN := ⟨QNaN.lt⟩

instance : LE QNaN := ⟨QNaN.le⟩

instance QNaN.decLt : DecidableRel (α := QNaN) (· < ·)
  | .num a, .num b => inferInstanceAs (Decidable (a < b))
  | .nan, _ => isFalse (fun h => h)
  | .num _, .nan => isFalse (fun h => h)

section spec

variable {α : Type} [LinearOrderedField α]

/-- Sum of two complex numbers. -/
def complex.add (a b : complex α) : complex α :=
  { real := a.real + b.real, imag := a.imag + b.imag }

/-- Product of two complex numbers,
`(a + bi)(x + yi) = (ax - by) + (ay + bx)i`. -/
def complex.mul (a b : complex α) : complex α :=
  { real := a.real * b.real - a.imag * b.imag
    imag := a.real * b.imag + a.imag * b.real }

/-- Squared modulus `|z|^2`. -/
def complex.normSq (z : complex α) : α :=
  z.real * z.real + z.imag * z.imag

/-- The orbit the specification describes: `z_0 = 0`, `z_k = z_{k-1}^2 + c`. -/
def specOrbit (c : complex α) : Nat → complex α
  | 0 => { real := 0, imag := 0 }
  | k + 1 => ((specOrbit c k).mul (specOrbit c k)).add c

/-- The escape-time count as the specification words it: the smallest
`k ≥ 1` such that `|z_k|^2 ≥ 4.0` or `k = MAX_ITER`. -/
def specEscapeCount (c : complex α) : Nat :=
  Nat.find (p := fun k => 1 ≤ k ∧ (4 ≤ (specOrbit c k).normSq ∨ (k : Int) = MAX_ITER))
    ⟨255, by decide, Or.inr rfl⟩

end spec

end Mandelbrot

namespace Matmul

/-- A `double *` value: the name of a heap block, or `NULL`. -/
abbrev Ptr := Nat

/-- The null pointer, which names no block. -/
def NULL : Ptr := 0

/-- The heap: the cells of every block, a block that was not allocated
having no cell. -/
abbrev Heap (α : Type) := Ptr → List α

/-- `INT_MAX` of the 32-bit `int`. -/
def INT_MAX : Int := 2147483647

/-- The value a 32-bit `int` holds when the exact result of an operation is
`x`: the two's-complement representative of `x` modulo `2^32`. -/
def int32 (x : Int) : Int := (x + 2147483648) % 4294967296 - 2147483648

/-- The product `a * b` of two `int`. -/
def imul (a b : Int) : Int := int32 (a * b)

/-- The sum `a + b` of two `int`. -/
def iadd (a b : Int) : Int := int32 (a + b)

/-- The value a 64-bit `size_t` holds when the exact value is `x`. -/
def size_t (x : Int) : Int := x % 18446744073709551616

/-- The argument `sizeof(double)*n*n` of `malloc`: `sizeof(double)` is the
`size_t` 8, so `n` is converted to `size_t` and both products are taken
modulo `2^64`. -/
def matrix_bytes (n : Int) : Int := size_t (size_t (8 * size_t n) * size_t n)

section ops

variable {α : Type}

/-- The read `p[idx]`; `none` when `p` is `NULL` or `idx` is outside the
block. -/
def Heap.read (h : Heap α) (p : Ptr) (idx : Int) : Option α :=
  if p = NULL then none else if 0 ≤ idx then (h p)[idx.toNat]? else none

/-- The assignment `p[idx] = v`; `none` when `p` is `NULL` or `idx` is outside
the block. -/
def Heap.write (h : Heap α) (p : Ptr) (idx : Int) (v : α) : Option (Heap α) :=
  if p ≠ NULL ∧ 0 ≤ idx ∧ idx.toNat < (h p).length then
    some (Function.update h p ((h p).set idx.toNat v))
  else none

/-- `for (x = 0; x < n; x++) body`, the body possibly failing. -/
def forLoopM {σ : Type} (n : Int) (body : Int → σ → Option σ) (s : σ) : Option σ :=
  (List.range n.toNat).foldlM (fun s x => body (x : Int) s) s

/-- `p = malloc(bytes)`: `p` is what the allocator returns, `NULL` when the
allocation fails and otherwise a block of `bytes / sizeof(double)` doubles
with arbitrary contents `junk`. -/
def malloc (h : Heap α) (p : Ptr) (bytes : Int) (junk : Nat → α) : Heap α :=
  if p = NULL then h else Function.update h p ((List.range (bytes / 8).toNat).map junk)

/-- `free(p)`: nothing for `NULL`, otherwise the block has no cell left. -/
def free (h : Heap α) (p : Ptr) : Heap α :=
  if p = NULL then h else Function.update h p []

/-- `void transpose(double *A, double *B, int n)`. -/
def transpose (h : Heap α) (A B : Ptr) (n : Int) : Option (Heap α) :=
  forLoopM n (fun i h =>
    forLoopM n (fun j h => do
      let v ← h.read A (iadd (imul i n) j)
      h.write B (iadd (imul j n) i) v) h) h

variable [Zero α] [Add α] [Mul α]

/-- `void mm(double *A, double *B, double *C, int n)`. -/
def mm (h : Heap α) (A B C : Ptr) (n : Int) : Option (Heap α) :=
  forLoopM n (fun i h =>
    forLoopM n (fun j h => do
      let dot ← forLoopM n (fun k dot => do
        let a ← h.read A (iadd (imul i n) k)
        let b ← h.read B (iadd (imul k n) j)
        pure (dot + a * b)) (0 : α)
      h.write C (iadd (imul i n) j) dot) h) h

/-- `void mm_omp(...)`: the loop nest of `mm` under `#pragma omp for`, rows
taken in increasing order. -/
def mm_omp (h : Heap α) (A B C : Ptr) (n : Int) : Option (Heap α) :=
  forLoopM n (fun i h =>
    forLoopM n (fun j h => do
      let dot ← forLoopM n (fun k dot => do
        let a ← h.read A (iadd (imul i n) k)
        let b ← h.read B (iadd (imul k n) j)
        pure (dot + a * b)) (0 : α)
      h.write C (iadd (imul i n) j) dot) h) h

/-- `void mmT(double *A, double *B, double *C, int n)`; `B2` is what `malloc`
returns (`NULL` on failure) and `junk` the initial contents of the block. -/
def mmT (h : Heap α) (A B C : Ptr) (n : Int) (B2 : Ptr) (junk : Nat → α) : Option (Heap α) := do
  let h := malloc h B2 (matrix_bytes n) junk
  let h ← transpose h B B2 n
  let h ← forLoopM n (fun i h =>
    forLoopM n (fun j h => do
      let dot ← forLoopM n (fun k dot => do
        let a ← h.read A (iadd (imul i n) k)
        let b ← h.read B2 (iadd (imul j n) k)
        pure (dot + a * b)) (0 : α)
      h.write C (iadd (imul i n) j) dot) h) h
  pure (free h B2)

/-- `void mmT_omp(...)`: as `mmT`, the multiply loop nest under
`#pragma omp for`, rows taken in increasing order. -/
def mmT_omp (h : Heap α) (A B C : Ptr) (n : Int) (B2 : Ptr) (junk : Nat → α) :
    Option (Heap α) := do
  let h := malloc h B2 (matrix_bytes n) junk
  let h ← transpose h B B2 n
  let h ← forLoopM n (fun i h =>
    forLoopM n (fun j h => do
      let dot ← forLoopM n (fun k dot => do
        let a ← h.read A (iadd (imul i n) k)
        let b ← h.read B2 (iadd (imul j n) k)
        pure (dot + a * b)) (0 : α)
      h.write C (iadd (imul i n) j) dot) h) h
  pure (free h B2)

/-- The entry `(i, j)` of the product of the row-major `n` by `n` matrices `a`
and `b`, accumulated from `0` in the order `k = 0, 1, ..., n-1`. -/
def dotProduct (a b : List α) (n i j : Nat) : α :=
  (List.range n).foldl (fun dot k => dot + a.getD (i * n + k) 0 * b.getD (k * n + j) 0) 0

/-- The row-major block of the product of `a` and `b`: cell `idx` holds the
entry of row `idx / n` and column `idx % n`. -/
def productBlock (a b : List α) (n : Nat) : List α :=
  (List.range (n * n)).map (fun idx => dotProduct a b n (idx / n) (idx % n))

end ops

section invariants

variable {α : Type}

/-- Cells `(i, j)` the loop nest has already handled when it is about to
run column `y` of row `x`. -/
def handled (n x y i j : Nat) : Prop := (i < x ∧ j < n) ∨ (i = x ∧ j < y)

/-- State of the target block `T` when the loop nest is about to run column
`y` of row `x`: handled cells hold their values, everything else is as in the
initial heap `h0`. -/
def FillInv (n : Nat) (T : Ptr) (f : Nat → Nat → Nat) (v : Nat → Nat → α) (h0 : Heap α)
    (x y : Nat) (h : Heap α) : Prop :=
  (∀ p, p ≠ T → h p = h0 p) ∧ (h T).length = (h0 T).length ∧
    (∀ i j, handled n x y i j → (h T)[f i j]? = some (v i j)) ∧
    (∀ idx, (∀ i j, handled n x y i j → idx ≠ f i j) → (h T)[idx]? = (h0 T)[idx]?)

/-- The pointer `p` names an allocated block of `cells` doubles. -/
def Block (h : Heap α) (p : Ptr) (cells : Nat) : Prop :=
  p ≠ NULL ∧ (h p).length = cells

/-- Every pointer in `ps` names an allocated block of `n * n` cells. -/
def Sized (n : Nat) (ps : List Ptr) (h : Heap α) : Prop :=
  ∀ p ∈ ps, Block h p (n * n)

end invariants

/-- The data of the end-to-end scenario of the specification, `n = 2`: block
`1` is `A = [[1,0],[0,1]]`, block `2` is `B = [[1,2],[3,4]]`, block `3` is an
output buffer `C` of four cells, and no other block is allocated. -/
def scenarioHeap : Heap ℚ := fun p =>
  if p = 1 then [1, 0, 0, 1] else if p = 2 then [1, 2, 3, 4] else if p = 3 then [0, 0, 0, 0]
  else []

/-- The smallest matrix dimension whose last flat index does not fit the
32-bit `int`: `46341 * 46341 - 1 = 2147488280 > INT_MAX`. -/
def overflowDim : Nat := 46341

/-- A heap in which every block has `46341 * 46341` cells, all `0`. -/
def overflowHeap : Heap ℚ := fun _ => List.replicate (overflowDim * overflowDim) 0

/-- A heap in which block `1` is the identity matrix of dimension `46341` and
every other block has `46341 * 46341` cells, all `0`. -/
def overflowIdentityHeap : Heap ℚ := fun p =>
  if p = 1 then
    (List.range (overflowDim * overflowDim)).map
      (fun idx => if idx / overflowDim = idx % overflowDim then 1 else 0)
  else List.replicate (overflowDim * overflowDim) 0

end Matmul

/-! ## The escape-time evaluator -/

namespace Mandelbrot

section ops

variable {α : Type} [Add α] [Sub α] [Mul α]
  [OfNat α 2] [OfNat α 4] [LT α] [DecidableRel (α := α) (· < ·)]

/-- One pass of the do-while loop, as an unfolding of `cal_pixel_loop`. -/
theorem cal_pixel_loop_unfold (c : complex α) (z_real z_imag : α) (iter : Int) :
    cal_pixel_loop c z_real z_imag iter =
      if iter + 1 < MAX_ITER ∧ z_real * z_real + z_imag * z_imag < 4 then
        cal_pixel_loop c (z_real * z_real - z_imag * z_imag + c.real)
          (2 * z_real * z_imag + c.imag) (iter + 1)
      else iter + 1 := by
  rw [cal_pixel_loop]

/-- Entered below the cap, the loop returns a count above the entry count and
not above `MAX_ITER`, whatever the arithmetic does. -/
theorem cal_pixel_loop_bounds (c : complex α) (z_real z_imag : α) (iter : Int)
    (h : iter < MAX_ITER) :
    iter + 1 ≤ cal_pixel_loop c z_real z_imag iter ∧
      cal_pixel_loop c z_real z_imag iter ≤ MAX_ITER := by
  generalize hn : (MAX_ITER - iter).toNat = n
  induction n generalizing z_real z_imag iter with
  | zero => omega
  | succ n ih =>
    rw [cal_pixel_loop_unfold]
    split_ifs with hc
    · have := ih (z_real * z_real - z_imag * z_imag + c.real)
        (2 * z_real * z_imag + c.imag) (iter + 1) hc.1 (by omega)
      omega
    · omega

/-- C1: for every coordinate `c`, over any arithmetic, `cal_pixel c` is an
integer `iter` with `1 ≤ iter ≤ MAX_ITER = 255`. -/
theorem cal_pixel_range [Zero α] (c : complex α) :
    1 ≤ cal_pixel c ∧ cal_pixel c ≤ MAX_ITER ∧ MAX_ITER = 255 := by
  have h := cal_pixel_loop_bounds c 0 0 0 (by decide)
  exact ⟨by simpa using h.1, h.2, rfl⟩

/-- Entered below the cap with the pass count equal to `iter`, a budget that
covers the distance to the cap lets the loop exit, with the value the loop
returns and as many passes as that value. -/
theorem cal_pixel_steps_exit (c : complex α) (fuel : Nat) (z_real z_imag : α) (iter : Int)
    (passes : Nat) (hp : (passes : Int) = iter) (h : iter < MAX_ITER)
    (hf : (MAX_ITER - iter).toNat ≤ fuel) :
    ∃ p : Nat, cal_pixel_steps c fuel z_real z_imag iter passes =
        some (cal_pixel_loop c z_real z_imag iter, p) ∧
      (p : Int) = cal_pixel_loop c z_real z_imag iter := by
  induction fuel generalizing z_real z_imag iter passes with
  | zero => omega
  | succ fuel ih =>
    rw [cal_pixel_loop_unfold, cal_pixel_steps]
    split_ifs with hc
    · exact ih _ _ (iter + 1) (passes + 1) (by push_cast; omega) hc.1 (by omega)
    · exact ⟨passes + 1, rfl, by push_cast; omega⟩

/-- C13: on every input, over any arithmetic, the loop of `cal_pixel` exits
within a budget of `MAX_ITER = 255` passes of its body; the number of passes
executed equals the returned counter, one increment per pass, and a pass that
brings the counter to `MAX_ITER` is the last one. -/
theorem cal_pixel_terminates [Zero α] (c : complex α) :
    (∃ passes : Nat, cal_pixel_steps c 255 0 0 0 0 = some (cal_pixel c, passes) ∧
      (passes : Int) = cal_pixel c ∧ passes ≤ 255) ∧
    (∀ z_real z_imag : α, ∀ iter : Int, MAX_ITER ≤ iter + 1 →
      cal_pixel_loop c z_real z_imag iter = iter + 1 ∧
      ∀ fuel passes, cal_pixel_steps c (fuel + 1) z_real z_imag iter passes =
        some (iter + 1, passes + 1)) := by
  constructor
  · obtain ⟨p, hp, hpe⟩ := cal_pixel_steps_exit c 255 0 0 0 0 rfl (by decide) (by decide)
    refine ⟨p, hp, hpe, ?_⟩
    have hb := (cal_pixel_loop_bounds c 0 0 0 (by decide)).2
    change cal_pixel_loop c 0 0 0 ≤ 255 at hb
    omega
  · intro z_real z_imag iter hi
    have hn : ¬ (iter + 1 < MAX_ITER ∧ z_real * z_real + z_imag * z_imag < 4) :=
      fun hc => absurd hc.1 (not_lt.mpr hi)
    refine ⟨by rw [cal_pixel_loop_unfold, if_neg hn], fun fuel passes => ?_⟩
    rw [cal_pixel_steps, if_neg hn]

/-- Pass `k + 1` of the loop, entered with the values `orbit c k`, tests
`lengthsq` of the values it was entered with and goes on with
`orbit c (k + 1)`. -/
theorem cal_pixel_loop_pass [Zero α] (c : complex α) (k : Nat) :
    cal_pixel_loop c (orbit c k).real (orbit c k).imag k =
      if (k : Int) + 1 < MAX_ITER ∧ lengthsq (orbit c k) < 4 then
        cal_pixel_loop c (orbit c (k + 1)).real (orbit c (k + 1)).imag ((k : Int) + 1)
      else (k : Int) + 1 := by
  rw [cal_pixel_loop_unfold]
  rfl

/-- Entered after `k` passes, over any arithmetic, the loop stops at the first
pass `r > k` at which the test `lengthsq < 4.0` on the value the pass was
entered with fails, or at pass `MAX_ITER`. -/
theorem cal_pixel_loop_stops [Zero α] (c : complex α) (k : Nat) (hk : (k : Int) < MAX_ITER) :
    ∃ r : Nat, cal_pixel_loop c (orbit c k).real (orbit c k).imag k = (r : Int) ∧
      k + 1 ≤ r ∧ (¬ (lengthsq (orbit c (r - 1)) < 4) ∨ (r : Int) = MAX_ITER) ∧
      ∀ m, k + 1 ≤ m → m < r → lengthsq (orbit c (m - 1)) < 4 ∧ (m : Int) < MAX_ITER := by
  generalize hn : (MAX_ITER - (k : Int)).toNat = n
  induction n generalizing k with
  | zero => omega
  | succ n ih =>
    rw [cal_pixel_loop_pass]
    split_ifs with hc
    · obtain ⟨r, hr, hle, hstop, hmin⟩ := ih (k + 1) (by exact_mod_cast hc.1) (by push_cast; omega)
      refine ⟨r, by exact_mod_cast hr, by omega, hstop, ?_⟩
      intro m hm hmr
      rcases Nat.eq_or_lt_of_le hm with h | h
      · subst h
        exact ⟨by simpa using hc.2, by exact_mod_cast hc.1⟩
      · exact hmin m h hmr
    · refine ⟨k + 1, by push_cast; rfl, le_refl _, ?_, fun m hm hmr => by omega⟩
      rw [not_and_or, not_lt] at hc
      rcases hc with h | h
      · right
        push_cast
        change (k : Int) < 255 at hk
        change (255 : Int) ≤ k + 1 at h
        change (k : Int) + 1 = 255
        omega
      · left
        simpa using h

/-- C2, as amended: over any arithmetic on `double`, with `z_0 = 0` and `z_k`
computed from `z_{k-1}` by the operations of the loop body, `cal_pixel c` is
the smallest `k ≥ 1` such that the test `|z_{k-1}|^2 < 4.0` fails or
`k = MAX_ITER`: the escape test of a pass reads the value of `z` the pass
started from. -/
theorem cal_pixel_least_lagged [Zero α] (c : complex α) :
    ∃ r : Nat, cal_pixel c = (r : Int) ∧
      IsLeast {k : Nat | 1 ≤ k ∧ (¬ (lengthsq (orbit c (k - 1)) < 4) ∨ (k : Int) = MAX_ITER)}
        r := by
  obtain ⟨r, hr, hle, hstop, hmin⟩ := cal_pixel_loop_stops c 0 (by decide)
  refine ⟨r, hr, ⟨by omega, hstop⟩, ?_⟩
  rintro m ⟨hm1, hm⟩
  by_contra hlt
  have h := hmin m (by omega) (by omega)
  rcases hm with hm | hm
  · exact hm h.1
  · omega

/-- C16, as amended: over any arithmetic on `double` in which the first test
`0 * 0 + 0 * 0 < 4.0` holds, the escape test of a pass reads `lengthsq` of the
value the pass started from: `cal_pixel c` is a count `r` with `r = MAX_ITER`
or the test `|z_{r-1}|^2 < 4.0` failing, no smaller count `m ≥ 1` has
`m = MAX_ITER` or a failing test, and the count is at least 2 and never 1. -/
theorem cal_pixel_tests_previous [Zero α] (c : complex α) (h0 : (0 * 0 + 0 * 0 : α) < 4) :
    ∃ r : Nat, cal_pixel c = (r : Int) ∧ 2 ≤ r ∧
      ((r : Int) = MAX_ITER ∨ ¬ (lengthsq (orbit c (r - 1)) < 4)) ∧
      (∀ m, 1 ≤ m → m < r → (m : Int) ≠ MAX_ITER ∧ lengthsq (orbit c (m - 1)) < 4) ∧
      cal_pixel c ≠ 1 := by
  obtain ⟨r, hr, hle, hstop, hmin⟩ := cal_pixel_loop_stops c 0 (by decide)
  have hr2 : 2 ≤ r := by
    by_contra hlt
    have hr1 : r = 1 := by omega
    subst hr1
    rcases hstop with h | h
    · exact h h0
    · exact absurd h (by decide)
  have hr' : cal_pixel c = (r : Int) := hr
  refine ⟨r, hr', hr2, hstop.symm, fun m hm hmr => ?_, ?_⟩
  · have h := hmin m (by omega) hmr
    exact ⟨ne_of_lt h.2, h.1⟩
  · rw [hr']
    omega

/-- C16, witness: over the rationals the first test holds, and the count at
`c = 3 + 0i` is at least 2. -/
theorem cal_pixel_tests_previous_witness :
    ((0 * 0 + 0 * 0 : ℚ) < 4) ∧
      ∃ r : Nat, cal_pixel (⟨3, 0⟩ : complex ℚ) = (r : Int) ∧ 2 ≤ r ∧
        ((r : Int) = MAX_ITER ∨ ¬ (lengthsq (orbit (⟨3, 0⟩ : complex ℚ) (r - 1)) < 4)) ∧
        (∀ m, 1 ≤ m → m < r →
          (m : Int) ≠ MAX_ITER ∧ lengthsq (orbit (⟨3, 0⟩ : complex ℚ) (m - 1)) < 4) ∧
        cal_pixel (⟨3, 0⟩ : complex ℚ) ≠ 1 :=
  ⟨by norm_num, cal_pixel_tests_previous (⟨3, 0⟩ : complex ℚ) (by norm_num)⟩

end ops

section nan

/-- Adding `nan` yields `nan`. -/
theorem QNaN.add_nan (x : QNaN) : x + QNaN.nan = QNaN.nan := by
  cases x <;> rfl

/-- A product with `nan` on the left is `nan`. -/
theorem QNaN.nan_mul (x : QNaN) : QNaN.nan * x = QNaN.nan := rfl

/-- A sum with `nan` on the left is `nan`. -/
theorem QNaN.nan_add (x : QNaN) : QNaN.nan + x = QNaN.nan := rfl

/-- The value `nan` is below nothing. -/
theorem QNaN.not_nan_lt (x : QNaN) : ¬ (QNaN.nan < x) := fun h => h

/-- Nothing is at most `nan`. -/
theorem QNaN.not_le_nan (x : QNaN) : ¬ (x ≤ QNaN.nan) := by
  cases x <;> exact fun h => h

/-- At `c = NaN + 0i` every value of `z` after the first pass has a `nan` real
part. -/
theorem orbit_nan (k : Nat) : (orbit (⟨QNaN.nan, 0⟩ : complex QNaN) (k + 1)).real = QNaN.nan :=
  QNaN.add_nan _

/-- At `c = NaN + 0i` every `lengthsq` after the first pass is `nan`. -/
theorem lengthsq_nan (k : Nat) :
    lengthsq (orbit (⟨QNaN.nan, 0⟩ : complex QNaN) (k + 1)) = QNaN.nan := by
  rw [lengthsq, orbit_nan, QNaN.nan_mul, QNaN.nan_add]

/-- C16, counterexample: at `c = NaN + 0i` the second pass computes
`lengthsq = NaN`, the test `lengthsq < 4.0` is false and `cal_pixel` returns
2, although 2 is not `MAX_ITER` and `|z_1|^2 >= 4.0` does not hold; no `z_k`
has `|z_k|^2 >= 4.0`, so the smallest count with `iter = MAX_ITER` or
`|z_{iter-1}|^2 >= 4.0` is 255. -/
theorem cal_pixel_nan :
    cal_pixel (⟨QNaN.nan, 0⟩ : complex QNaN) = 2 ∧ (2 : Int) ≠ MAX_ITER ∧
      ¬ (4 ≤ lengthsq (orbit (⟨QNaN.nan, 0⟩ : complex QNaN) 1)) ∧
      IsLeast {k : Nat | 1 ≤ k ∧ ((k : Int) = MAX_ITER ∨
        4 ≤ lengthsq (orbit (⟨QNaN.nan, 0⟩ : complex QNaN) (k - 1)))} 255 := by
  have hz : ¬ ((4 : QNaN) ≤ lengthsq (orbit (⟨QNaN.nan, 0⟩ : complex QNaN) 0)) := by
    intro h
    have h4 : (4 : ℚ) ≤ 0 * 0 + 0 * 0 := h
    norm_num at h4
  have hall : ∀ k : Nat, ¬ ((4 : QNaN) ≤ lengthsq (orbit (⟨QNaN.nan, 0⟩ : complex QNaN) k)) := by
    intro k
    cases k with
    | zero => exact hz
    | succ k =>
      rw [lengthsq_nan]
      exact QNaN.not_le_nan 4
  refine ⟨?_, by decide, hall 1, ⟨by decide, Or.inl rfl⟩, ?_⟩
  · have h1 : (0 : Int) + 1 < MAX_ITER ∧ ((0 : QNaN) * 0 + 0 * 0 < 4) := by
      refine ⟨by decide, ?_⟩
      have h4 : (0 * 0 + 0 * 0 : ℚ) < 4 := by norm_num
      exact h4
    have h2 : ¬ ((0 : Int) + 1 + 1 < MAX_ITER ∧
        ((0 * 0 - 0 * 0 + QNaN.nan) * (0 * 0 - 0 * 0 + QNaN.nan) +
          (2 * 0 * 0 + 0) * (2 * 0 * 0 + 0) < (4 : QNaN))) := by
      rintro ⟨-, h⟩
      rw [QNaN.add_nan, QNaN.nan_mul, QNaN.nan_add] at h
      exact QNaN.not_nan_lt _ h
    unfold cal_pixel
    rw [cal_pixel_loop_unfold, if_pos h1, cal_pixel_loop_unfold, if_neg h2]
    rfl
  · rintro m ⟨hm1, hm⟩
    rcases hm with hm | hm
    · change (m : Int) = 255 at hm
      omega
    · exact absurd hm (hall (m - 1))

end nan

section exact

variable {α : Type} [LinearOrderedField α]

/-- Real part of the next point of the specification orbit. -/
theorem specOrbit_succ_real (c : complex α) (k : Nat) :
    (specOrbit c (k + 1)).real =
      (specOrbit c k).real * (specOrbit c k).real -
        (specOrbit c k).imag * (specOrbit c k).imag + c.real := rfl

/-- Imaginary part of the next point of the specification orbit, in the shape
the source computes it. -/
theorem specOrbit_succ_imag (c : complex α) (k : Nat) :
    (specOrbit c (k + 1)).imag =
      2 * (specOrbit c k).real * (specOrbit c k).imag + c.imag := by
  simp only [specOrbit, complex.add, complex.mul]
  ring

/-- The variables `z_real`, `z_imag` after `k` passes hold the orbit point
`z_k`; pass `k + 1` tests `|z_k|^2`, the squared modulus of the value it
started from. -/
theorem cal_pixel_loop_orbit (c : complex α) (k : Nat) :
    cal_pixel_loop c (specOrbit c k).real (specOrbit c k).imag k =
      if (k : Int) + 1 < MAX_ITER ∧ (specOrbit c k).normSq < 4 then
        cal_pixel_loop c (specOrbit c (k + 1)).real (specOrbit c (k + 1)).imag ((k : Int) + 1)
      else (k : Int) + 1 := by
  rw [cal_pixel_loop_unfold, specOrbit_succ_real, specOrbit_succ_imag]
  rfl

/-- Entered after `k` passes, the loop stops at the first pass `r > k` whose
starting value has `|z_{r-1}|^2 ≥ 4`, or at pass `MAX_ITER`. -/
theorem cal_pixel_loop_least (c : complex α) (k : Nat) (hk : (k : Int) < MAX_ITER) :
    ∃ r : Nat, cal_pixel_loop c (specOrbit c k).real (specOrbit c k).imag k = (r : Int) ∧
      k + 1 ≤ r ∧ (4 ≤ (specOrbit c (r - 1)).normSq ∨ (r : Int) = MAX_ITER) ∧
      ∀ m, k + 1 ≤ m → m < r → (specOrbit c (m - 1)).normSq < 4 ∧ (m : Int) < MAX_ITER := by
  generalize hn : (MAX_ITER - (k : Int)).toNat = n
  induction n generalizing k with
  | zero => omega
  | succ n ih =>
    rw [cal_pixel_loop_orbit]
    split_ifs with hc
    · obtain ⟨r, hr, hle, hstop, hmin⟩ := ih (k + 1) (by exact_mod_cast hc.1) (by push_cast; omega)
      refine ⟨r, by exact_mod_cast hr, by omega, hstop, ?_⟩
      intro m hm hmr
      rcases Nat.eq_or_lt_of_le hm with h | h
      · subst h
        exact ⟨by simpa using hc.2, by exact_mod_cast hc.1⟩
      · exact hmin m h hmr
    · refine ⟨k + 1, by push_cast; rfl, le_refl _, ?_, fun m hm hmr => by omega⟩
      rw [not_and_or, not_lt, not_lt] at hc
      rcases hc with h | h
      · right
        push_cast
        change (k : Int) < 255 at hk
        change (255 : Int) ≤ k + 1 at h
        change (k : Int) + 1 = 255
        omega
      · left
        simpa using h

/-- C2, counterexample: at `c = 3 + 0i` the source returns 2 although
`|z_1|^2 = 9 ≥ 4` makes the count of the specification equal to 1. -/
theorem cal_pixel_ne_specEscapeCount :
    cal_pixel (⟨3, 0⟩ : complex ℚ) = 2 ∧ specEscapeCount (⟨3, 0⟩ : complex ℚ) = 1 ∧
      cal_pixel (⟨3, 0⟩ : complex ℚ) ≠ (specEscapeCount (⟨3, 0⟩ : complex ℚ) : Int) := by
  have h1 : cal_pixel (⟨3, 0⟩ : complex ℚ) = 2 := by
    unfold cal_pixel
    rw [cal_pixel_loop_unfold, if_pos (by norm_num [MAX_ITER]), cal_pixel_loop_unfold,
      if_neg (by norm_num [MAX_ITER])]
    rfl
  have h2 : specEscapeCount (⟨3, 0⟩ : complex ℚ) = 1 := by
    unfold specEscapeCount
    rw [Nat.find_eq_iff]
    refine ⟨⟨le_refl _, Or.inl ?_⟩, fun n hn hp => by omega⟩
    norm_num [specOrbit, complex.add, complex.mul, complex.normSq]
  refine ⟨h1, h2, ?_⟩
  rw [h1, h2]
  decide

/-- C3: at the origin every orbit point is `0`, with `|z|^2 < 4`, and
`cal_pixel` returns exactly `MAX_ITER = 255`. -/
theorem cal_pixel_origin :
    cal_pixel (⟨0, 0⟩ : complex α) = MAX_ITER ∧ MAX_ITER = 255 ∧
      ∀ k, specOrbit (⟨0, 0⟩ : complex α) k = ⟨0, 0⟩ ∧
        (specOrbit (⟨0, 0⟩ : complex α) k).normSq < 4 := by
  have horb : ∀ k, specOrbit (⟨0, 0⟩ : complex α) k = ⟨0, 0⟩ := by
    intro k
    induction k with
    | zero => rfl
    | succ k ih => simp [specOrbit, ih, complex.add, complex.mul]
  have hlt : ∀ k, (specOrbit (⟨0, 0⟩ : complex α) k).normSq < 4 := by
    intro k
    rw [horb k]
    simp [complex.normSq]
  refine ⟨?_, rfl, fun k => ⟨horb k, hlt k⟩⟩
  obtain ⟨r, hr, -, hstop, -⟩ := cal_pixel_loop_least (⟨0, 0⟩ : complex α) 0 (by decide)
  rcases hstop with h | h
  · exact absurd (hlt (r - 1)) (not_lt.mpr h)
  · exact hr.trans h

/-- C4: a coordinate with `real^2 + imag^2 > 4` is returned with a count of
at most 2. -/
theorem cal_pixel_outside (c : complex α) (h : 4 < c.real * c.real + c.imag * c.imag) :
    cal_pixel c ≤ 2 := by
  unfold cal_pixel
  rw [cal_pixel_loop_unfold, if_pos (by norm_num [MAX_ITER]), cal_pixel_loop_unfold,
    if_neg (by simp only [not_and, not_lt]; intro _; simpa using h.le)]
  norm_num

/-- C4, witness: `c = 3 + 0i` has `3^2 + 0^2 > 4` and a count of at most 2. -/
theorem cal_pixel_outside_witness :
    (4 : ℚ) < 3 * 3 + 0 * 0 ∧ cal_pixel (⟨3, 0⟩ : complex ℚ) ≤ 2 :=
  ⟨by norm_num, cal_pixel_outside (⟨3, 0⟩ : complex ℚ) (by norm_num)⟩

/-- One step of the orbit keeps `|z|^2 ≤ 1/4` when `|c|^2 ≤ 1/16`:
`|z^2 + c|^2 = |z^2|^2 + 2 Re(z^2 conj c) + |c|^2 ≤ 1/16 + 2/16 + 1/16`. -/
theorem normSq_step_small (a b p q : α) (hz : a * a + b * b ≤ 1 / 4)
    (hc : p * p + q * q ≤ 1 / 16) :
    (a * a - b * b + p) * (a * a - b * b + p) +
      (a * b + b * a + q) * (a * b + b * a + q) ≤ 1 / 4 := by
  have hs : 0 ≤ a * a + b * b := add_nonneg (mul_self_nonneg a) (mul_self_nonneg b)
  have hcn : 0 ≤ p * p + q * q := add_nonneg (mul_self_nonneg p) (mul_self_nonneg q)
  have hw : (a * a - b * b) ^ 2 + (a * b + b * a) ^ 2 = (a * a + b * b) ^ 2 := by ring
  have hw1 : (a * a - b * b) ^ 2 + (a * b + b * a) ^ 2 ≤ 1 / 16 := by
    rw [hw]
    nlinarith
  have hw0 : 0 ≤ (a * a - b * b) ^ 2 + (a * b + b * a) ^ 2 := by positivity
  have hcs : ((a * a - b * b) * p + (a * b + b * a) * q) ^ 2 ≤
      ((a * a - b * b) ^ 2 + (a * b + b * a) ^ 2) * (p * p + q * q) := by
    nlinarith [sq_nonneg ((a * a - b * b) * q - (a * b + b * a) * p)]
  have hcs1 : ((a * a - b * b) * p + (a * b + b * a) * q) ^ 2 ≤ 1 / 16 * (1 / 16) :=
    le_trans hcs (mul_le_mul hw1 hc hcn (by norm_num))
  have hcross : (a * a - b * b) * p + (a * b + b * a) * q ≤ 1 / 16 := by
    by_contra hlt
    rw [not_le] at hlt
    have hsq : (1 / 16 : α) * (1 / 16) <
        ((a * a - b * b) * p + (a * b + b * a) * q) *
          ((a * a - b * b) * p + (a * b + b * a) * q) :=
      mul_lt_mul'' hlt hlt (by norm_num) (by norm_num)
    rw [sq] at hcs1
    exact absurd hcs1 (not_le.mpr hsq)
  have hexp : (a * a - b * b + p) * (a * a - b * b + p) +
      (a * b + b * a + q) * (a * b + b * a + q) =
      ((a * a - b * b) ^ 2 + (a * b + b * a) ^ 2) +
        2 * ((a * a - b * b) * p + (a * b + b * a) * q) + (p * p + q * q) := by ring
  rw [hexp]
  linarith

/-- With `|c|^2 ≤ 1/16` every point of the orbit has `|z_k|^2 ≤ 1/4`. -/
theorem specOrbit_small (c : complex α) (h : c.real * c.real + c.imag * c.imag ≤ 1 / 16)
    (k : Nat) : (specOrbit c k).normSq ≤ 1 / 4 := by
  induction k with
  | zero =>
    simp only [specOrbit, complex.normSq]
    norm_num
  | succ k ih =>
    exact normSq_step_small _ _ _ _ ih h

/-- C18: in exact arithmetic, a coordinate with `real^2 + imag^2 ≤ 1/16` has
every orbit point within `|z_k|^2 ≤ 1/4` (that is `|z_k| ≤ 1/2`), below the
escape threshold 4, and `cal_pixel` returns `MAX_ITER = 255`. -/
theorem cal_pixel_inside (c : complex α) (h : c.real * c.real + c.imag * c.imag ≤ 1 / 16) :
    cal_pixel c = MAX_ITER ∧ MAX_ITER = 255 ∧
      ∀ k, (specOrbit c k).normSq ≤ 1 / 4 ∧ (specOrbit c k).normSq < 4 := by
  have hsmall : ∀ k, (specOrbit c k).normSq < 4 := fun k =>
    lt_of_le_of_lt (specOrbit_small c h k) (by norm_num)
  refine ⟨?_, rfl, fun k => ⟨specOrbit_small c h k, hsmall k⟩⟩
  obtain ⟨r, hr, -, hstop, -⟩ := cal_pixel_loop_least c 0 (by decide)
  rcases hstop with h4 | h4
  · exact absurd (hsmall (r - 1)) (not_lt.mpr h4)
  · exact hr.trans h4

/-- C18, witness: `c = 1/4 + 0i` lies on the circle `|c| = 1/4` and is
returned with 255. -/
theorem cal_pixel_inside_witness :
    (1 / 4 : ℚ) * (1 / 4) + 0 * 0 ≤ 1 / 16 ∧ cal_pixel (⟨1 / 4, 0⟩ : complex ℚ) = MAX_ITER :=
  ⟨by norm_num, (cal_pixel_inside (⟨1 / 4, 0⟩ : complex ℚ) (by norm_num)).1⟩

/-- Negating the imaginary parts of `c` and of `z` does not change what the
loop returns. -/
theorem cal_pixel_loop_conj (re im z_real z_imag : α) (iter : Int) :
    cal_pixel_loop (⟨re, -im⟩ : complex α) z_real (-z_imag) iter =
      cal_pixel_loop (⟨re, im⟩ : complex α) z_real z_imag iter := by
  generalize hn : (MAX_ITER - iter).toNat = n
  induction n generalizing z_real z_imag iter with
  | zero =>
    rw [cal_pixel_loop_unfold, cal_pixel_loop_unfold (⟨re, im⟩ : complex α),
      if_neg (fun hc => by have := hc.1; omega), if_neg (fun hc => by have := hc.1; omega)]
  | succ n ih =>
    rw [cal_pixel_loop_unfold, cal_pixel_loop_unfold (⟨re, im⟩ : complex α)]
    have h1 : z_real * z_real + -z_imag * -z_imag = z_real * z_real + z_imag * z_imag := by ring
    have h2 : z_real * z_real - -z_imag * -z_imag + re = z_real * z_real - z_imag * z_imag + re := by
      ring
    have h3 : 2 * z_real * -z_imag + -im = -(2 * z_real * z_imag + im) := by ring
    simp only [h1, h2, h3]
    split_ifs with hc
    · exact ih _ _ (iter + 1) (by omega)
    · rfl

end exact

/-! ## The grid fill -/

section grid

/-- A loop of `n + 1` passes is a loop of `n` passes followed by pass `n`. -/
theorem forLoop_succ {σ : Type} (n : Nat) (body : Nat → σ → σ) (s : σ) :
    forLoop (n + 1) body s = body n (forLoop n body s) := by
  simp [forLoop, List.range_succ, List.foldl_append]

/-- A loop of no passes leaves the state alone. -/
theorem forLoop_zero {σ : Type} (body : Nat → σ → σ) (s : σ) : forLoop 0 body s = s := rfl

/-- A row of `w` cells, visited left to right, contains cell `(a, b)` once if
it lies in that row and never otherwise. -/
theorem count_row (h w a b : Nat) :
    ((List.range w).map (fun j => (h, j))).count (a, b) = if a = h ∧ b < w then 1 else 0 := by
  induction w with
  | zero => simp
  | succ w ih =>
    rw [List.range_succ, List.map_append, List.count_append, ih]
    simp only [List.map_cons, List.map_nil, List.count_cons, List.count_nil, beq_iff_eq,
      Prod.mk.injEq]
    split_ifs <;> omega

/-- The scan order visits every cell of the grid exactly once and no other
cell. -/
theorem count_scanOrder (w h a b : Nat) :
    (scanOrder w h).count (a, b) = if a < h ∧ b < w then 1 else 0 := by
  induction h with
  | zero => simp [scanOrder]
  | succ h ih =>
    rw [scanOrder, List.count_append, ih, count_row]
    split_ifs <;> omega

/-- The scan order of an `h` by `w` grid has `h * w` entries. -/
theorem length_scanOrder (w h : Nat) : (scanOrder w h).length = h * w := by
  induction h with
  | zero => simp [scanOrder]
  | succ h ih => simp [scanOrder, ih, Nat.succ_mul]

/-- Reading a cell after an assignment. -/
theorem Grid.store_image (g : Grid) (i j : Nat) (v : Int) (a b : Nat) :
    (g.store i j v).image a b = if a = i ∧ b = j then v else g.image a b := rfl

/-- The log after an assignment. -/
theorem Grid.store_writes (g : Grid) (i j : Nat) (v : Int) :
    (g.store i j v).writes = g.writes ++ [(i, j)] := rfl

variable {α : Type} [Zero α] [Add α] [Sub α] [Mul α] [Div α] [NatCast α]
  [OfNat α 2] [OfNat α 4] [LT α] [DecidableRel (α := α) (· < ·)]

/-- After the first `w` passes of the inner loop for row `i`, the cells
`image[i][0..w-1]` hold their computed values, every other cell is as before,
and the log has grown by those `w` cells in order. -/
theorem fill_row_upto (i : Nat) (g : Grid) (w : Nat) :
    (∀ a b, (forLoop w (fun j g => g.store i j (cal_pixel (pixel_coord i j : complex α)))
        g).image a b =
      if a = i ∧ b < w then cal_pixel (pixel_coord i b : complex α) else g.image a b) ∧
    (forLoop w (fun j g => g.store i j (cal_pixel (pixel_coord i j : complex α))) g).writes =
      g.writes ++ (List.range w).map (fun j => (i, j)) := by
  induction w with
  | zero => simp [forLoop_zero]
  | succ w ih =>
    rw [forLoop_succ]
    refine ⟨fun a b => ?_, ?_⟩
    · rw [Grid.store_image, ih.1]
      by_cases h1 : a = i ∧ b = w
      · obtain ⟨rfl, rfl⟩ := h1
        simp
      · rw [if_neg h1]
        by_cases h2 : a = i ∧ b < w
        · rw [if_pos h2, if_pos ⟨h2.1, by omega⟩]
        · rw [if_neg h2, if_neg (fun h => by
            rcases Nat.lt_succ_iff_lt_or_eq.mp h.2 with h3 | h3
            · exact h2 ⟨h.1, h3⟩
            · exact h1 ⟨h.1, h3⟩)]
    · rw [Grid.store_writes, ih.2, List.range_succ, List.map_append, List.append_assoc]
      rfl

/-- After the first `h` rows of the grid fill, the cells of rows `0..h-1`
hold their computed values, every other cell is as before, and the log has
grown by the scan order of those rows. -/
theorem grid_fill_upto (g : Grid) (h : Nat) :
    (∀ a b, (forLoop h (fun i g => fill_row α i g) g).image a b =
      if a < h ∧ b < WIDTH then cal_pixel (pixel_coord a b : complex α) else g.image a b) ∧
    (forLoop h (fun i g => fill_row α i g) g).writes = g.writes ++ scanOrder WIDTH h := by
  induction h with
  | zero => simp [forLoop_zero, scanOrder]
  | succ h ih =>
    rw [forLoop_succ]
    refine ⟨fun a b => ?_, ?_⟩
    · rw [fill_row, (fill_row_upto h _ WIDTH).1, ih.1]
      by_cases h1 : a = h ∧ b < WIDTH
      · rw [if_pos h1, if_pos ⟨by omega, h1.2⟩, h1.1]
      · rw [if_neg h1]
        by_cases h2 : a < h ∧ b < WIDTH
        · rw [if_pos h2, if_pos ⟨by omega, h2.2⟩]
        · rw [if_neg h2, if_neg (fun h3 => by
            rcases Nat.lt_succ_iff_lt_or_eq.mp h3.1 with h4 | h4
            · exact h2 ⟨h4, h3.2⟩
            · exact h1 ⟨h4, h3.2⟩)]
    · rw [fill_row, (fill_row_upto h _ WIDTH).2, ih.2, scanOrder, List.append_assoc]

/-- C5: for every initial grid, after the grid-fill loop nest every cell
`image[i][j]` with `i < HEIGHT`, `j < WIDTH` holds `cal_pixel` of its mapped
coordinate; the run assigns `HEIGHT * WIDTH` times, each cell exactly once;
and the cells do not depend on the initial grid. -/
theorem grid_fill_populates (g : Grid) :
    (∀ i j, i < HEIGHT → j < WIDTH →
      (grid_fill α g).image i j = cal_pixel (pixel_coord i j : complex α)) ∧
    (∃ log, (grid_fill α g).writes = g.writes ++ log ∧ log.length = HEIGHT * WIDTH ∧
      ∀ i j, i < HEIGHT → j < WIDTH → log.count (i, j) = 1) ∧
    (∀ g0 : Grid, ∀ i j, i < HEIGHT → j < WIDTH →
      (grid_fill α g0).image i j = (grid_fill α g).image i j) := by
  have key : ∀ g1 : Grid, ∀ i j, i < HEIGHT → j < WIDTH →
      (grid_fill α g1).image i j = cal_pixel (pixel_coord i j : complex α) := by
    intro g1 i j hi hj
    rw [grid_fill, (grid_fill_upto g1 HEIGHT).1, if_pos ⟨hi, hj⟩]
  refine ⟨key g, ⟨scanOrder WIDTH HEIGHT, (grid_fill_upto g HEIGHT).2, length_scanOrder _ _,
    fun i j hi hj => ?_⟩, fun g0 i j hi hj => ?_⟩
  · rw [count_scanOrder, if_pos ⟨hi, hj⟩]
  · rw [key g0 i j hi hj, key g i j hi hj]

/-- C5, witness: from a grid filled with the sentinel `-1` and an empty log,
cell `image[0][0]` ends with its computed value and is assigned once. -/
theorem grid_fill_populates_witness :
    (grid_fill ℚ ⟨fun _ _ => -1, []⟩).image 0 0 = cal_pixel (pixel_coord 0 0 : complex ℚ) ∧
      ∃ log, (grid_fill ℚ ⟨fun _ _ => -1, []⟩).writes = [] ++ log ∧
        log.length = HEIGHT * WIDTH ∧ log.count (0, 0) = 1 := by
  have h := grid_fill_populates (α := ℚ) ⟨fun _ _ => -1, []⟩
  obtain ⟨log, h1, h2, h3⟩ := h.2.1
  exact ⟨h.1 0 0 (by decide) (by decide), log, h1, h2, h3 0 0 (by decide) (by decide)⟩

/-- The cells after the task for row `i`: the cells of row `i` hold their
computed values, every other cell is as before. -/
theorem fill_row_image (i : Nat) (g : Grid) (a b : Nat) :
    (fill_row α i g).image a b =
      if a = i ∧ b < WIDTH then cal_pixel (pixel_coord i b : complex α) else g.image a b := by
  rw [fill_row]
  exact (fill_row_upto i g WIDTH).1 a b

/-- The cells after the row tasks of a list of rows, run in the order of the
list: the cells of the listed rows hold their computed values, every other
cell is as before. -/
theorem rows_foldl_image (l : List Nat) (g : Grid) (a b : Nat) :
    (l.foldl (fun g i => fill_row α i g) g).image a b =
      if a ∈ l ∧ b < WIDTH then cal_pixel (pixel_coord a b : complex α) else g.image a b := by
  induction l generalizing g with
  | nil => simp
  | cons i l ih =>
    rw [List.foldl_cons, ih, fill_row_image]
    by_cases h1 : a ∈ l ∧ b < WIDTH
    · rw [if_pos h1, if_pos ⟨List.mem_cons_of_mem _ h1.1, h1.2⟩]
    · rw [if_neg h1]
      by_cases h2 : a = i ∧ b < WIDTH
      · rw [if_pos h2, if_pos ⟨by rw [h2.1]; exact List.mem_cons_self _ _, h2.2⟩, h2.1]
      · rw [if_neg h2, if_neg (fun h3 => by
          rcases List.mem_cons.mp h3.1 with h4 | h4
          · exact h2 ⟨h4, h3.2⟩
          · exact h1 ⟨h4, h3.2⟩)]

/-- C11: the task for row `i` assigns exactly the cells `image[i][0..WIDTH-1]`,
leaves every other row as it was, and computes its cells without regard to
the grid it starts from; hence running the row tasks in the order of any
permutation of `0..HEIGHT-1` yields the same cells as running them in
increasing order. -/
theorem row_tasks_independent :
    (∀ (g : Grid) (i : Nat),
      (fill_row α i g).writes = g.writes ++ (List.range WIDTH).map (fun j => (i, j))) ∧
    (∀ (g : Grid) (i a b : Nat), a ≠ i → (fill_row α i g).image a b = g.image a b) ∧
    (∀ (g g0 : Grid) (i j : Nat), j < WIDTH →
      (fill_row α i g).image i j = (fill_row α i g0).image i j) ∧
    (∀ order : List Nat, order.Perm (List.range HEIGHT) → ∀ g : Grid,
      (order.foldl (fun g i => fill_row α i g) g).image = (grid_fill α g).image) := by
  refine ⟨fun g i => ?_, fun g i a b hne => ?_,
    fun g g0 i j hj => ?_, fun order hperm g => ?_⟩
  · rw [fill_row]
    exact (fill_row_upto i g WIDTH).2
  · rw [fill_row_image, if_neg (fun h => hne h.1)]
  · rw [fill_row_image, fill_row_image, if_pos ⟨rfl, hj⟩, if_pos ⟨rfl, hj⟩]
  · funext a b
    rw [rows_foldl_image, grid_fill, (grid_fill_upto g HEIGHT).1]
    have hmem : a ∈ order ↔ a < HEIGHT := by rw [hperm.mem_iff, List.mem_range]
    by_cases h : a < HEIGHT ∧ b < WIDTH
    · rw [if_pos ⟨hmem.mpr h.1, h.2⟩, if_pos h]
    · rw [if_neg (fun h1 => h ⟨hmem.mp h1.1, h1.2⟩), if_neg h]

/-- C11, witness: running the rows from the last to the first on a grid filled
with the sentinel `-1` yields the cells of the run in increasing order. -/
theorem row_tasks_independent_witness :
    ((List.range HEIGHT).reverse.foldl (fun g i => fill_row ℚ i g) ⟨fun _ _ => -1, []⟩).image =
      (grid_fill ℚ ⟨fun _ _ => -1, []⟩).image :=
  (row_tasks_independent (α := ℚ)).2.2.2 (List.range HEIGHT).reverse (List.reverse_perm _)
    ⟨fun _ _ => -1, []⟩

end grid

/-! ## The pixel-to-plane mapping -/

section mapping

variable {α : Type} [LinearOrderedField α]

/-- In exact arithmetic the mapping is `real = (j - 320) / 160`,
`imag = (i - 240) / 120`. -/
theorem pixel_coord_exact (i j : Nat) :
    (pixel_coord i j : complex α).real = ((j : α) - 320) / 160 ∧
      (pixel_coord i j : complex α).imag = ((i : α) - 240) / 120 := by
  simp only [pixel_coord, WIDTH, HEIGHT, Nat.cast_ofNat]
  constructor <;> ring

/-- C10, as amended: for every pixel `(i, j)` with `i < HEIGHT = 480` and
`j < WIDTH = 640` the coordinate computed by the grid-fill loop lies in the
square `real ∈ [-2, 2]`, `imag ∈ [-2, 2]`. -/
theorem pixel_coord_in_square (i j : Nat) (hi : i < HEIGHT) (hj : j < WIDTH) :
    -2 ≤ (pixel_coord i j : complex α).real ∧ (pixel_coord i j : complex α).real ≤ 2 ∧
      -2 ≤ (pixel_coord i j : complex α).imag ∧ (pixel_coord i j : complex α).imag ≤ 2 := by
  have hi0 : (0 : α) ≤ (i : α) := Nat.cast_nonneg i
  have hj0 : (0 : α) ≤ (j : α) := Nat.cast_nonneg j
  have hi1 : (i : α) ≤ 480 := by exact_mod_cast hi.le
  have hj1 : (j : α) ≤ 640 := by exact_mod_cast hj.le
  rw [(pixel_coord_exact i j).1, (pixel_coord_exact i j).2]
  refine ⟨?_, ?_, ?_, ?_⟩
  · rw [le_div_iff₀ (by norm_num)]
    linarith
  · rw [div_le_iff₀ (by norm_num)]
    linarith
  · rw [le_div_iff₀ (by norm_num)]
    linarith
  · rw [div_le_iff₀ (by norm_num)]
    linarith

/-- C10, witness of the amended claim: pixel `(0, 0)` maps into the square. -/
theorem pixel_coord_in_square_witness :
    -2 ≤ (pixel_coord 0 0 : complex ℚ).real ∧ (pixel_coord 0 0 : complex ℚ).real ≤ 2 ∧
      -2 ≤ (pixel_coord 0 0 : complex ℚ).imag ∧ (pixel_coord 0 0 : complex ℚ).imag ≤ 2 :=
  pixel_coord_in_square 0 0 (by decide) (by decide)

/-- C10, counterexample: pixel `(0, 0)` is inside the grid and maps to
`imag = -2`, below the claimed lower bound `-1.5`. -/
theorem pixel_coord_imag_below :
    0 < HEIGHT ∧ 0 < WIDTH ∧ (pixel_coord 0 0 : complex ℚ).imag = -2 ∧
      ¬ (-(3 / 2) ≤ (pixel_coord 0 0 : complex ℚ).imag ∧
        (pixel_coord 0 0 : complex ℚ).imag ≤ 3 / 2) := by
  have h : (pixel_coord 0 0 : complex ℚ).imag = -2 := by
    rw [(pixel_coord_exact 0 0).2]
    norm_num
  refine ⟨by decide, by decide, h, ?_⟩
  rw [h]
  norm_num

/-- Rows `i` and `HEIGHT - i` map to conjugate coordinates. -/
theorem pixel_coord_mirror (i j : Nat) (hi : i ≤ HEIGHT) :
    (pixel_coord (HEIGHT - i) j : complex α) =
      ⟨(pixel_coord i j : complex α).real, -(pixel_coord i j : complex α).imag⟩ := by
  have h1 := pixel_coord_exact (α := α) (HEIGHT - i) j
  have h2 := pixel_coord_exact (α := α) i j
  have hc : ((HEIGHT - i : Nat) : α) = 480 - (i : α) := by
    rw [Nat.cast_sub hi]
    simp [HEIGHT]
  have him : (pixel_coord (HEIGHT - i) j : complex α).imag =
      -(pixel_coord i j : complex α).imag := by
    rw [h1.2, h2.2, hc]
    ring
  have hre : (pixel_coord (HEIGHT - i) j : complex α).real =
      (pixel_coord i j : complex α).real := by
    rw [h1.1, h2.1]
  calc (pixel_coord (HEIGHT - i) j : complex α)
      = ⟨(pixel_coord (HEIGHT - i) j : complex α).real,
          (pixel_coord (HEIGHT - i) j : complex α).imag⟩ := rfl
    _ = ⟨(pixel_coord i j : complex α).real, -(pixel_coord i j : complex α).imag⟩ := by
        rw [hre, him]

/-- C17: in exact arithmetic `cal_pixel (re, -im) = cal_pixel (re, im)`, and
after the grid fill `image[i][j] = image[HEIGHT - i][j]` for every
`1 ≤ i ≤ HEIGHT - 1` and every `j < WIDTH`. -/
theorem image_mirror_symmetric :
    (∀ re im : α, cal_pixel (⟨re, -im⟩ : complex α) = cal_pixel (⟨re, im⟩ : complex α)) ∧
    (∀ (g : Grid) (i j : Nat), 1 ≤ i → i ≤ HEIGHT - 1 → j < WIDTH →
      (grid_fill α g).image i j = (grid_fill α g).image (HEIGHT - i) j) := by
  have hsym : ∀ re im : α,
      cal_pixel (⟨re, -im⟩ : complex α) = cal_pixel (⟨re, im⟩ : complex α) := by
    intro re im
    have h := cal_pixel_loop_conj re im 0 0 0
    rw [neg_zero] at h
    exact h
  refine ⟨hsym, fun g i j h1 h2 hj => ?_⟩
  have hH : 0 < HEIGHT := by decide
  rw [grid_fill, (grid_fill_upto g HEIGHT).1, (grid_fill_upto g HEIGHT).1,
    if_pos ⟨by omega, hj⟩, if_pos ⟨by omega, hj⟩, pixel_coord_mirror i j (by omega), hsym]

/-- C17, witness: rows 1 and 479 agree in column 0. -/
theorem image_mirror_symmetric_witness :
    (grid_fill ℚ ⟨fun _ _ => -1, []⟩).image 1 0 =
      (grid_fill ℚ ⟨fun _ _ => -1, []⟩).image (HEIGHT - 1) 0 := by
  have h1 : 1 ≤ HEIGHT - 1 := by
    unfold HEIGHT
    omega
  have h2 : 0 < WIDTH := by
    unfold WIDTH
    omega
  have key : ∀ G G0 : Grid, G = G0 → G0.image 1 0 = G0.image (HEIGHT - 1) 0 →
      G.image 1 0 = G.image (HEIGHT - 1) 0 := by
    intro G G0 e h
    rw [e]
    exact h
  refine key _ _ ?_
    ((image_mirror_symmetric (α := ℚ)).2 ⟨fun _ _ => -1, []⟩ 1 0 (le_refl 1) h1 h2)
  rfl

end mapping

end Mandelbrot

/-! ## Dense matrix multiply -/

namespace Matmul

section heap

variable {α : Type}

/-- A loop of no passes succeeds and leaves the state alone. -/
theorem forLoopM_zero {σ : Type} (body : Int → σ → Option σ) (s : σ) :
    forLoopM ((0 : Nat) : Int) body s = some s := rfl

/-- A loop of `n + 1` passes is a loop of `n` passes followed by pass `n`. -/
theorem forLoopM_succ {σ : Type} (n : Nat) (body : Int → σ → Option σ) (s : σ) :
    forLoopM ((n + 1 : Nat) : Int) body s = (forLoopM (n : Int) body s).bind (body (n : Int)) := by
  simp [forLoopM, List.range_succ, List.foldlM_append]

/-- Invariant rule for a loop whose passes all succeed. -/
theorem forLoopM_inv {σ : Type} (n : Nat) (body : Int → σ → Option σ) (Inv : Nat → σ → Prop)
    (s : σ) (h0 : Inv 0 s)
    (hstep : ∀ x t, x < n → Inv x t → ∃ t', body (x : Int) t = some t' ∧ Inv (x + 1) t') :
    ∃ t, forLoopM (n : Int) body s = some t ∧ Inv n t := by
  induction n with
  | zero => exact ⟨s, rfl, h0⟩
  | succ n ih =>
    obtain ⟨t, ht, hinv⟩ := ih (fun x t hx => hstep x t (by omega))
    obtain ⟨t', ht', hinv'⟩ := hstep n t (by omega) hinv
    exact ⟨t', by rw [forLoopM_succ, ht]; exact ht', hinv'⟩

/-- A result inside the range of `int` is held exactly. -/
theorem int32_eq (x : Int) (h0 : -2147483648 ≤ x) (h1 : x ≤ 2147483647) : int32 x = x := by
  unfold int32
  omega

/-- The bound `n * n ≤ INT_MAX` on naturals. -/
theorem bound_nat (n : Nat) (hn : (n : Int) * n ≤ INT_MAX) : n * n ≤ 2147483647 := by
  unfold INT_MAX at hn
  exact_mod_cast hn

/-- A read through a pointer that is not `NULL`, at a non-negative index, is a
lookup in the block. -/
theorem Heap.read_natCast (h : Heap α) (p : Ptr) (k : Nat) (hp : p ≠ NULL) :
    h.read p (k : Int) = (h p)[k]? := by
  simp [Heap.read, hp]

/-- A write through a pointer that is not `NULL`, at an index inside the
block, succeeds and updates that cell. -/
theorem Heap.write_natCast (h : Heap α) (p : Ptr) (k : Nat) (v : α) (hp : p ≠ NULL)
    (hk : k < (h p).length) :
    h.write p (k : Int) v = some (Function.update h p ((h p).set k v)) := by
  simp [Heap.write, hk, hp]

/-- A finished row `x` is the start of row `x + 1`. -/
theorem handled_row_end (n x i j : Nat) : handled n x n i j ↔ handled n (x + 1) 0 i j := by
  unfold handled
  omega

/-- Running column `y` of row `x` handles the cell `(x, y)` and no other. -/
theorem handled_succ (n x y i j : Nat) (hy : y < n) :
    handled n x (y + 1) i j ↔ handled n x y i j ∨ (i = x ∧ j = y) := by
  unfold handled
  omega

/-- A loop nest that, at `(i, j)`, stores `v i j` in cell `f i j` of block `T`
succeeds and fills exactly the cells `f i j`, `i, j < n`. -/
theorem fill_loop (n : Nat) (T : Ptr) (f : Nat → Nat → Nat) (v : Nat → Nat → α)
    (cell : Int → Int → Heap α → Option (Heap α)) (h0 : Heap α)
    (hlt : ∀ i j, i < n → j < n → f i j < (h0 T).length)
    (hinj : ∀ i j i' j', i < n → j < n → i' < n → j' < n → f i j = f i' j' → i = i' ∧ j = j')
    (hcell : ∀ i j h, i < n → j < n → (∀ p, p ≠ T → h p = h0 p) →
      (h T).length = (h0 T).length →
      cell (i : Int) (j : Int) h = some (Function.update h T ((h T).set (f i j) (v i j)))) :
    ∃ h', forLoopM (n : Int) (fun i h => forLoopM (n : Int) (fun j h => cell i j h) h) h0 =
        some h' ∧
      (∀ p, p ≠ T → h' p = h0 p) ∧ (h' T).length = (h0 T).length ∧
      (∀ i j, i < n → j < n → (h' T)[f i j]? = some (v i j)) ∧
      (∀ idx, (∀ i j, i < n → j < n → idx ≠ f i j) → (h' T)[idx]? = (h0 T)[idx]?) := by
  have hrow : ∀ x t, x < n → FillInv n T f v h0 x 0 t →
      ∃ t', forLoopM (n : Int) (fun j h => cell (x : Int) j h) t = some t' ∧
        FillInv n T f v h0 (x + 1) 0 t' := by
    intro x t hx hinv
    obtain ⟨t', ht', hinv'⟩ := forLoopM_inv n (fun j h => cell (x : Int) j h)
      (fun y h => FillInv n T f v h0 x y h) t hinv (by
        intro y h hy ⟨hfr, hlen, hdone, hrest⟩
        refine ⟨_, hcell x y h hx hy hfr hlen, ?_, ?_, ?_, ?_⟩
        · intro p hp
          rw [Function.update_noteq hp]
          exact hfr p hp
        · rw [Function.update_same, List.length_set, hlen]
        · intro i j hij
          rw [Function.update_same]
          have hi : i < n ∧ j < n := by
            unfold handled at hij
            omega
          rcases (handled_succ n x y i j hy).mp hij with hold | ⟨rfl, rfl⟩
          · have hne : f x y ≠ f i j := by
              intro heq
              have := hinj x y i j hx hy hi.1 hi.2 heq
              unfold handled at hold
              omega
            rw [List.getElem?_set_ne hne]
            exact hdone i j hold
          · rw [List.getElem?_set_self (by rw [hlen]; exact hlt i j hx hy)]
        · intro idx hidx
          rw [Function.update_same]
          have hne : f x y ≠ idx :=
            fun heq => hidx x y ((handled_succ n x y x y hy).mpr (Or.inr ⟨rfl, rfl⟩)) heq.symm
          rw [List.getElem?_set_ne hne]
          exact hrest idx (fun i j hij =>
            hidx i j ((handled_succ n x y i j hy).mpr (Or.inl hij))))
    refine ⟨t', ht', hinv'.1, hinv'.2.1, fun i j hij => hinv'.2.2.1 i j ?_,
      fun idx hidx => hinv'.2.2.2 idx (fun i j hij => hidx i j ?_)⟩
    · exact (handled_row_end n x i j).mpr hij
    · exact (handled_row_end n x i j).mp hij
  obtain ⟨h', hh', hfr, hlen, hdone, hrest⟩ := forLoopM_inv n
    (fun i h => forLoopM (n : Int) (fun j h => cell i j h) h)
    (fun x h => FillInv n T f v h0 x 0 h) h0
    ⟨fun _ _ => rfl, rfl, fun i j hij => by unfold handled at hij; omega, fun _ _ => rfl⟩ hrow
  refine ⟨h', hh', hfr, hlen, fun i j hi hj => hdone i j ?_, fun idx hidx =>
    hrest idx (fun i j hij => hidx i j ?_ ?_)⟩
  · unfold handled
    omega
  · unfold handled at hij
    omega
  · unfold handled at hij
    omega

/-- A flat index `i * n + j` with `i, j < n` lies below `n * n`. -/
theorem idx_lt (n i j : Nat) (hi : i < n) (hj : j < n) : i * n + j < n * n := by
  calc i * n + j < i * n + n := by omega
    _ = (i + 1) * n := by ring
    _ ≤ n * n := Nat.mul_le_mul_right n hi

/-- The flat index determines the row and the column. -/
theorem idx_inj (n i j i' j' : Nat) (hj : j < n) (hj' : j' < n)
    (h : i * n + j = i' * n + j') : i = i' ∧ j = j' := by
  have hn : 0 < n := by omega
  have h1 : (j + i * n) / n = i := by
    rw [Nat.add_mul_div_right _ _ hn, Nat.div_eq_of_lt hj, zero_add]
  have h2 : (j' + i' * n) / n = i' := by
    rw [Nat.add_mul_div_right _ _ hn, Nat.div_eq_of_lt hj', zero_add]
  have hi : i = i' := by
    rw [← h1, ← h2, Nat.add_comm j, Nat.add_comm j', h]
  subst hi
  exact ⟨rfl, by omega⟩

/-- Every index below `n * n` is the flat index of its row and column. -/
theorem idx_decomp (n idx : Nat) (h : idx < n * n) :
    idx / n < n ∧ idx % n < n ∧ idx = idx / n * n + idx % n := by
  have hn : 0 < n := by
    rcases Nat.eq_zero_or_pos n with h0 | h0
    · subst h0
      omega
    · exact h0
  refine ⟨Nat.div_lt_of_lt_mul h, Nat.mod_lt _ hn, ?_⟩
  have := Nat.div_add_mod idx n
  rw [Nat.mul_comm] at this
  omega

/-- While `n * n` fits the `int`, the flat index computed on `int` is the flat
index computed on naturals. -/
theorem idx_cast (i n j : Nat) (hi : i < n) (hj : j < n) (hn : n * n ≤ 2147483647) :
    iadd (imul (i : Int) (n : Int)) (j : Int) = ((i * n + j : Nat) : Int) := by
  have h1 : i * n + j < n * n := idx_lt n i j hi hj
  have h2 : ((i * n : Nat) : Int) ≤ 2147483647 := by
    have : i * n ≤ 2147483647 := by omega
    exact_mod_cast this
  have h3 : ((i * n + j : Nat) : Int) ≤ 2147483647 := by
    have : i * n + j ≤ 2147483647 := by omega
    exact_mod_cast this
  have h4 : (0 : Int) ≤ ((i * n : Nat) : Int) := Int.ofNat_nonneg _
  have h5 : imul (i : Int) (n : Int) = ((i * n : Nat) : Int) := by
    unfold imul
    rw [← Nat.cast_mul]
    exact int32_eq _ (by omega) h2
  unfold iadd
  rw [h5, ← Nat.cast_add]
  exact int32_eq _ (by have := Int.ofNat_nonneg (i * n + j); omega) h3

/-- A read at a flat index is a lookup in the block. -/
theorem Heap.read_idx (h : Heap α) (p : Ptr) (i n j : Nat) (hp : p ≠ NULL) (hi : i < n)
    (hj : j < n) (hn : n * n ≤ 2147483647) :
    h.read p (iadd (imul (i : Int) (n : Int)) (j : Int)) = (h p)[i * n + j]? := by
  rw [idx_cast i n j hi hj hn, Heap.read_natCast h p _ hp]

/-- A write at a flat index inside the block succeeds and updates that cell. -/
theorem Heap.write_idx (h : Heap α) (p : Ptr) (i n j : Nat) (v : α) (hp : p ≠ NULL)
    (hi : i < n) (hj : j < n) (hn : n * n ≤ 2147483647) (hk : i * n + j < (h p).length) :
    h.write p (iadd (imul (i : Int) (n : Int)) (j : Int)) v =
      some (Function.update h p ((h p).set (i * n + j) v)) := by
  rw [idx_cast i n j hi hj hn, Heap.write_natCast h p _ v hp hk]

/-- A loop whose passes all succeed with a pure update is a left fold over
the indices `0, 1, ..., n-1`. -/
theorem forLoopM_fold {σ : Type} (n : Nat) (body : Int → σ → Option σ) (g : Nat → σ → σ) (s : σ)
    (hb : ∀ k t, k < n → body (k : Int) t = some (g k t)) :
    forLoopM (n : Int) body s = some ((List.range n).foldl (fun t k => g k t) s) := by
  induction n with
  | zero => rfl
  | succ n ih =>
    rw [forLoopM_succ, ih (fun k t hk => hb k t (by omega)), Option.some_bind,
      hb n _ (by omega), List.range_succ, List.foldl_append]
    rfl

/-- The transposition loop nest fills the destination block. -/
theorem transpose_fill (h : Heap α) (A B : Ptr) (n : Nat) (hn : n * n ≤ 2147483647)
    (hAB : A ≠ B) (hA : Block h A (n * n)) (hB : Block h B (n * n)) :
    ∃ h', transpose h A B (n : Int) = some h' ∧ (∀ p, p ≠ B → h' p = h p) ∧
      (h' B).length = n * n ∧
      ∀ i j, i < n → j < n → ∃ x, (h A)[i * n + j]? = some x ∧ (h' B)[j * n + i]? = some x := by
  obtain ⟨hA0, hA⟩ := hA
  obtain ⟨hB0, hB⟩ := hB
  rcases Nat.eq_zero_or_pos n with hz | hz
  · subst hz
    exact ⟨h, rfl, fun _ _ => rfl, hB, fun i j hi _ => by omega⟩
  have h0A : 0 < (h A).length := by
    rw [hA]
    exact Nat.mul_pos hz hz
  obtain ⟨h', hh', hfr, hlen, hdone, -⟩ := fill_loop n B (fun i j => j * n + i)
    (fun i j => ((h A)[i * n + j]?).getD ((h A).get ⟨0, h0A⟩))
    (fun i j h => do
      let v ← h.read A (iadd (imul i n) j)
      h.write B (iadd (imul j n) i) v) h
    (fun i j hi hj => by rw [hB]; exact idx_lt n j i hj hi)
    (fun i j i' j' hi hj hi' hj' heq => by
      have := idx_inj n j i j' i' hi hi' heq
      exact ⟨this.2, this.1⟩)
    (by
      intro i j t hi hj hfr hlen
      have hlt : i * n + j < (h A).length := by rw [hA]; exact idx_lt n i j hi hj
      simp only [Heap.read_idx t A i n j hA0 hi hj hn, hfr A hAB, List.getElem?_eq_getElem hlt,
        Option.getD_some, Option.bind_eq_bind, Option.some_bind]
      exact Heap.write_idx t B j n i _ hB0 hj hi hn (by rw [hlen, hB]; exact idx_lt n j i hj hi))
  refine ⟨h', hh', hfr, by rw [hlen, hB], fun i j hi hj => ?_⟩
  have hlt : i * n + j < (h A).length := by rw [hA]; exact idx_lt n i j hi hj
  refine ⟨(h A)[i * n + j], List.getElem?_eq_getElem hlt, ?_⟩
  rw [hdone i j hi hj, List.getElem?_eq_getElem hlt, Option.getD_some]

/-- Two blocks of `n * n` cells that agree at every `i * n + j`, `i, j < n`,
are equal. -/
theorem block_ext (l l' : List α) (n : Nat) (hl : l.length = n * n) (hl' : l'.length = n * n)
    (hc : ∀ i j, i < n → j < n → l[i * n + j]? = l'[i * n + j]?) : l = l' := by
  apply List.ext_getElem?
  intro idx
  by_cases hidx : idx < n * n
  · obtain ⟨h1, h2, h3⟩ := idx_decomp n idx hidx
    rw [h3]
    exact hc _ _ h1 h2
  · rw [List.getElem?_eq_none (by omega), List.getElem?_eq_none (by omega)]

/-- C6, as amended: for every `n` with `n * n ≤ INT_MAX` and all distinct
allocated blocks `B`, `B2` of `n * n` cells, `transpose(B, B2, n)` succeeds,
leaves `B2[j*n+i] = B[i*n+j]` for every `i, j < n`, and leaves the input block
`B` unchanged. -/
theorem transpose_correct (h : Heap α) (B B2 : Ptr) (n : Nat) (hn : (n : Int) * n ≤ INT_MAX)
    (hne : B ≠ B2) (hB : Block h B (n * n)) (hB2 : Block h B2 (n * n)) :
    ∃ h', transpose h B B2 (n : Int) = some h' ∧
      (∀ i j, i < n → j < n →
        ∃ x, (h B)[i * n + j]? = some x ∧ (h' B2)[j * n + i]? = some x) ∧
      h' B = h B := by
  obtain ⟨h', hh', hfr, -, hcells⟩ := transpose_fill h B B2 n (bound_nat n hn) hne hB hB2
  exact ⟨h', hh', hcells, hfr B hne⟩

/-- A loop over `n` runs the passes `0, ..., n.toNat - 1`. -/
theorem forLoopM_toNat {σ : Type} (n : Int) (body : Int → σ → Option σ) (s : σ) :
    forLoopM n body s = forLoopM ((n.toNat : Nat) : Int) body s := by
  unfold forLoopM
  rw [Int.toNat_ofNat]

/-- A loop one of whose passes fails from every state does not return. -/
theorem forLoopM_none {σ : Type} (n : Int) (body : Int → σ → Option σ) (s : σ) (x : Nat)
    (hx : x < n.toNat) (hb : ∀ t, body (x : Int) t = none) : forLoopM n body s = none := by
  rw [forLoopM_toNat]
  generalize n.toNat = m at hx
  induction m with
  | zero => omega
  | succ m ih =>
    rw [forLoopM_succ]
    rcases Nat.lt_succ_iff_lt_or_eq.mp hx with h1 | h1
    · rw [ih h1]
      rfl
    · subst h1
      cases hf : forLoopM (x : Int) body s with
      | none => rfl
      | some t => exact hb t

/-- For `n = 46341` the flat index of row and column `46340` does not fit the
`int`: the exact value `2147488280` is held as `-2147479016`. -/
theorem overflow_index : iadd (imul 46340 46341) 46340 = -2147479016 := by
  decide

/-- A read at the wrapped index of row and column `46340` is outside every
block. -/
theorem read_overflow (h : Heap α) (p : Ptr) :
    h.read p (iadd (imul ((46340 : Nat) : Int) 46341) ((46340 : Nat) : Int)) = none := by
  have hidx : iadd (imul ((46340 : Nat) : Int) 46341) ((46340 : Nat) : Int) = -2147479016 :=
    overflow_index
  rw [hidx, Heap.read]
  split_ifs with h1 h2
  · rfl
  · omega
  · rfl

/-- For `n = 46341` the transposition does not return, whatever the heap. -/
theorem transpose_overflow (h : Heap α) (A B : Ptr) : transpose h A B 46341 = none := by
  unfold transpose
  refine forLoopM_none _ _ _ 46340 (by decide) (fun t => ?_)
  refine forLoopM_none _ _ _ 46340 (by decide) (fun u => ?_)
  simp only [Option.bind_eq_bind, read_overflow, Option.none_bind]

/-- C6, counterexample: with `n = 46341` and two distinct allocated blocks of
`46341 * 46341` cells, `n * n` exceeds `INT_MAX`, flat indices of the last
rows and columns wrap around to negative values on `int`, and `transpose`
does not return. -/
theorem transpose_overflows :
    Block overflowHeap 1 (46341 * 46341) ∧ Block overflowHeap 2 (46341 * 46341) ∧
      (1 : Ptr) ≠ 2 ∧ ¬ ((46341 : Int) * 46341 ≤ INT_MAX) ∧
      transpose overflowHeap 1 2 46341 = none :=
  ⟨⟨by decide, List.length_replicate _ _⟩, ⟨by decide, List.length_replicate _ _⟩, by decide,
    by decide, transpose_overflow overflowHeap 1 2⟩

/-- The bytes requested for an `n` by `n` matrix, while `n * n` fits the
`int`. -/
theorem matrix_bytes_eq (n : Int) (hn : n * n ≤ INT_MAX) : matrix_bytes n = 8 * (n * n) := by
  have h1 : n % 18446744073709551616 ≡ n [ZMOD 18446744073709551616] := Int.mod_modEq n _
  have h2 : 8 * (n % 18446744073709551616) % 18446744073709551616 ≡ 8 * n
      [ZMOD 18446744073709551616] := (Int.mod_modEq _ _).trans (h1.mul_left 8)
  have h3 : 8 * (n % 18446744073709551616) % 18446744073709551616 *
      (n % 18446744073709551616) ≡ 8 * n * n [ZMOD 18446744073709551616] := h2.mul h1
  have h4 : matrix_bytes n = (8 * n * n) % 18446744073709551616 := h3
  have h5 : 0 ≤ n * n := mul_self_nonneg n
  unfold INT_MAX at hn
  rw [h4, mul_assoc]
  exact Int.emod_eq_of_lt (by omega) (by omega)

/-- The cells `malloc` hands out for an `n` by `n` matrix, while `n * n` fits
the `int`. -/
theorem matrix_cells (n : Int) (hn : n * n ≤ INT_MAX) :
    (matrix_bytes n / 8).toNat = n.natAbs * n.natAbs := by
  rw [matrix_bytes_eq n hn, Int.mul_ediv_cancel_left _ (by norm_num), ← Int.natAbs_mul_self]
  exact Int.toNat_ofNat _

/-- A successful allocation leaves the other blocks as they were. -/
theorem malloc_other (h : Heap α) (p : Ptr) (bytes : Int) (junk : Nat → α) (q : Ptr)
    (hq : q ≠ p) : malloc h p bytes junk q = h q := by
  unfold malloc
  split_ifs
  · rfl
  · exact Function.update_noteq hq _ _

/-- A successful allocation for an `n` by `n` matrix yields an allocated block
of `n * n` cells. -/
theorem malloc_block (h : Heap α) (p : Ptr) (n : Int) (junk : Nat → α) (hp : p ≠ NULL)
    (hn : n * n ≤ INT_MAX) :
    Block (malloc h p (matrix_bytes n) junk) p (n.natAbs * n.natAbs) := by
  refine ⟨hp, ?_⟩
  rw [malloc, if_neg hp, Function.update_same, List.length_map, List.length_range,
    matrix_cells n hn]

/-- Freeing a block leaves the other blocks as they were. -/
theorem free_other (h : Heap α) (p q : Ptr) (hq : q ≠ p) : free h p q = h q := by
  unfold free
  split_ifs
  · rfl
  · exact Function.update_noteq hq _ _

/-- A freed block has no cell left. -/
theorem free_same (h : Heap α) (p : Ptr) (hp : p ≠ NULL) : free h p p = [] := by
  rw [free, if_neg hp, Function.update_same]

variable [Zero α] [Add α] [Mul α]

/-- The dot-product loop of the direct variant returns the dot product. -/
theorem mm_dot (h t : Heap α) (A B : Ptr) (n i j : Nat) (hn : n * n ≤ 2147483647)
    (hi : i < n) (hj : j < n) (hA : Block h A (n * n)) (hB : Block h B (n * n))
    (htA : t A = h A) (htB : t B = h B) :
    forLoopM (n : Int) (fun k dot => do
      let a ← t.read A (iadd (imul (i : Int) n) k)
      let b ← t.read B (iadd (imul k n) (j : Int))
      pure (dot + a * b)) (0 : α) = some (dotProduct (h A) (h B) n i j) := by
  refine forLoopM_fold n _
    (fun k dot => dot + (h A).getD (i * n + k) 0 * (h B).getD (k * n + j) 0) 0 ?_
  intro k dot hk
  have h1 : i * n + k < (h A).length := by rw [hA.2]; exact idx_lt n i k hi hk
  have h2 : k * n + j < (h B).length := by rw [hB.2]; exact idx_lt n k j hk hj
  simp only [Heap.read_idx t A i n k hA.1 hi hk hn, Heap.read_idx t B k n j hB.1 hk hj hn, htA,
    htB, List.getElem?_eq_getElem h1, List.getElem?_eq_getElem h2, Option.bind_eq_bind,
    Option.some_bind, List.getD_eq_getElem?_getD, Option.getD_some]
  rfl

/-- The direct loop nest fills `C` with the dot products and touches nothing
else. -/
theorem mm_fill (h : Heap α) (A B C : Ptr) (n : Nat) (hn : n * n ≤ 2147483647)
    (hAC : A ≠ C) (hBC : B ≠ C)
    (hA : Block h A (n * n)) (hB : Block h B (n * n)) (hC : Block h C (n * n)) :
    ∃ h', mm h A B C (n : Int) = some h' ∧ (∀ p, p ≠ C → h' p = h p) ∧
      (h' C).length = n * n ∧
      ∀ i j, i < n → j < n → (h' C)[i * n + j]? = some (dotProduct (h A) (h B) n i j) := by
  obtain ⟨h', hh', hfr, hlen, hdone, -⟩ := fill_loop n C (fun i j => i * n + j)
    (fun i j => dotProduct (h A) (h B) n i j)
    (fun i j h => do
      let dot ← forLoopM n (fun k dot => do
        let a ← h.read A (iadd (imul i n) k)
        let b ← h.read B (iadd (imul k n) j)
        pure (dot + a * b)) (0 : α)
      h.write C (iadd (imul i n) j) dot) h
    (fun i j hi hj => by rw [hC.2]; exact idx_lt n i j hi hj)
    (fun i j i' j' hi hj hi' hj' heq => idx_inj n i j i' j' hj hj' heq)
    (by
      intro i j t hi hj hfr hlen
      have hdot := mm_dot h t A B n i j hn hi hj hA hB (hfr A hAC) (hfr B hBC)
      simp only [Option.bind_eq_bind] at hdot ⊢
      rw [hdot, Option.some_bind]
      exact Heap.write_idx t C i n j _ hC.1 hi hj hn
        (by rw [hlen, hC.2]; exact idx_lt n i j hi hj))
  exact ⟨h', hh', hfr, by rw [hlen, hC.2], hdone⟩

/-- The transposed variant allocates, transposes, fills `C` with the same dot
products and frees the scratch block. -/
theorem mmT_fill (h : Heap α) (A B C : Ptr) (n : Nat) (B2 : Ptr) (junk : Nat → α)
    (hn : n * n ≤ 2147483647) (h2 : B2 ≠ NULL)
    (hAC : A ≠ C) (hA2 : B2 ≠ A) (hB2 : B2 ≠ B) (hC2 : B2 ≠ C)
    (hA : Block h A (n * n)) (hB : Block h B (n * n)) (hC : Block h C (n * n)) :
    ∃ h', mmT h A B C (n : Int) B2 junk = some h' ∧
      (∀ p, p ≠ C → p ≠ B2 → h' p = h p) ∧ h' B2 = [] ∧ (h' C).length = n * n ∧
      ∀ i j, i < n → j < n → (h' C)[i * n + j]? = some (dotProduct (h A) (h B) n i j) := by
  have hnI : (n : Int) * n ≤ INT_MAX := by
    unfold INT_MAX
    exact_mod_cast hn
  have hm : ∀ p, p ≠ B2 → malloc h B2 (matrix_bytes n) junk p = h p :=
    fun p hp => malloc_other h B2 _ junk p hp
  have hm2 : Block (malloc h B2 (matrix_bytes n) junk) B2 (n * n) := by
    have := malloc_block h B2 (n : Int) junk h2 hnI
    rwa [Int.natAbs_ofNat] at this
  obtain ⟨s2, htr, hfr2, hlen2, hcells2⟩ := transpose_fill (malloc h B2 (matrix_bytes n) junk)
    B B2 n hn (Ne.symm hB2) ⟨hB.1, by rw [hm B (Ne.symm hB2), hB.2]⟩ hm2
  have h2A : s2 A = h A := by rw [hfr2 A (Ne.symm hA2), hm A (Ne.symm hA2)]
  have h2C : s2 C = h C := by rw [hfr2 C (Ne.symm hC2), hm C (Ne.symm hC2)]
  obtain ⟨h3, hfill, hfr3, hlen3, hdone3, -⟩ := fill_loop n C (fun i j => i * n + j)
    (fun i j => dotProduct (h A) (h B) n i j)
    (fun i j h => do
      let dot ← forLoopM n (fun k dot => do
        let a ← h.read A (iadd (imul i n) k)
        let b ← h.read B2 (iadd (imul j n) k)
        pure (dot + a * b)) (0 : α)
      h.write C (iadd (imul i n) j) dot) s2
    (fun i j hi hj => by rw [h2C, hC.2]; exact idx_lt n i j hi hj)
    (fun i j i' j' hi hj hi' hj' heq => idx_inj n i j i' j' hj hj' heq)
    (by
      intro i j t hi hj hfr hlen
      have hdot : forLoopM (n : Int) (fun k dot => do
          let a ← t.read A (iadd (imul (i : Int) n) k)
          let b ← t.read B2 (iadd (imul (j : Int) n) k)
          pure (dot + a * b)) (0 : α) = some (dotProduct (h A) (h B) n i j) := by
        refine forLoopM_fold n _
          (fun k dot => dot + (h A).getD (i * n + k) 0 * (h B).getD (k * n + j) 0) 0 ?_
        intro k dot hk
        have h1 : i * n + k < (h A).length := by rw [hA.2]; exact idx_lt n i k hi hk
        obtain ⟨x, hx1, hx2⟩ := hcells2 k j hk hj
        rw [hm B (Ne.symm hB2)] at hx1
        simp only [Heap.read_idx t A i n k hA.1 hi hk hn, Heap.read_idx t B2 j n k h2 hj hk hn,
          hfr A hAC, hfr B2 hC2, h2A, hx1, hx2, List.getElem?_eq_getElem h1,
          Option.bind_eq_bind, Option.some_bind, List.getD_eq_getElem?_getD, Option.getD_some]
        rfl
      simp only [Option.bind_eq_bind] at hdot ⊢
      rw [hdot, Option.some_bind]
      exact Heap.write_idx t C i n j _ hC.1 hi hj hn
        (by rw [hlen, h2C, hC.2]; exact idx_lt n i j hi hj))
  refine ⟨free h3 B2, ?_, ?_, ?_, ?_, ?_⟩
  · unfold mmT
    simp only [Option.bind_eq_bind] at hfill ⊢
    rw [htr, Option.some_bind, hfill, Option.some_bind]
    rfl
  · intro p hpC hp2
    rw [free_other _ _ _ hp2, hfr3 p hpC, hfr2 p hp2, hm p hp2]
  · exact free_same h3 B2 h2
  · rw [free_other _ _ _ (Ne.symm hC2), hlen3, h2C, hC.2]
  · intro i j hi hj
    rw [free_other _ _ _ (Ne.symm hC2)]
    exact hdone3 i j hi hj

/-- For `n = 46341` the direct multiply does not return, whatever the heap. -/
theorem mm_overflow (h : Heap α) (A B C : Ptr) : mm h A B C 46341 = none := by
  unfold mm
  refine forLoopM_none _ _ _ 46340 (by decide) (fun t => ?_)
  refine forLoopM_none _ _ _ 0 (by decide) (fun u => ?_)
  have hdot : forLoopM (46341 : Int) (fun k dot => do
      let a ← u.read A (iadd (imul ((46340 : Nat) : Int) 46341) k)
      let b ← u.read B (iadd (imul k 46341) ((0 : Nat) : Int))
      pure (dot + a * b)) (0 : α) = none := by
    refine forLoopM_none _ _ _ 46340 (by decide) (fun d => ?_)
    simp only [Option.bind_eq_bind, read_overflow, Option.none_bind]
  simp only [Option.bind_eq_bind] at hdot ⊢
  rw [hdot]
  rfl

/-- For `n = 46341` the transposed multiply does not return, whatever the
heap and the answer of the allocator. -/
theorem mmT_overflow (h : Heap α) (A B C B2 : Ptr) (junk : Nat → α) :
    mmT h A B C 46341 B2 junk = none := by
  unfold mmT
  simp only [Option.bind_eq_bind]
  rw [transpose_overflow]
  rfl

/-- C7, as amended: for every `n` with `n * n ≤ INT_MAX` and all allocated
blocks `A`, `B`, `C` of `n * n` cells, `C` distinct from the inputs,
`mm(A, B, C, n)` succeeds and leaves in every cell `C[i*n+j]` the sum of
`A[i*n+k] * B[k*n+j]` accumulated from `0` as a left fold over
`k = 0, 1, ..., n-1`. -/
theorem mm_left_fold (h : Heap α) (A B C : Ptr) (n : Nat) (hn : (n : Int) * n ≤ INT_MAX)
    (hAC : A ≠ C) (hBC : B ≠ C)
    (hA : Block h A (n * n)) (hB : Block h B (n * n)) (hC : Block h C (n * n)) :
    ∃ h', mm h A B C (n : Int) = some h' ∧
      ∀ i j, i < n → j < n →
        (h' C)[i * n + j]? = some ((List.range n).foldl
          (fun dot k => dot + (h A).getD (i * n + k) 0 * (h B).getD (k * n + j) 0) 0) := by
  obtain ⟨h', hh', -, -, hcells⟩ := mm_fill h A B C n (bound_nat n hn) hAC hBC hA hB hC
  exact ⟨h', hh', hcells⟩

/-- C7, witness: `mm` on the scenario heap. -/
theorem mm_left_fold_witness :
    ∃ h', mm scenarioHeap 1 2 3 ((2 : Nat) : Int) = some h' ∧
      ∀ i j, i < 2 → j < 2 →
        (h' 3)[i * 2 + j]? = some ((List.range 2).foldl
          (fun dot k => dot + (scenarioHeap 1).getD (i * 2 + k) 0 *
            (scenarioHeap 2).getD (k * 2 + j) 0) 0) :=
  mm_left_fold scenarioHeap 1 2 3 2 (by decide) (by decide) (by decide) ⟨by decide, rfl⟩
    ⟨by decide, rfl⟩ ⟨by decide, rfl⟩

/-- C7, counterexample: with `n = 46341` and allocated blocks `A`, `B`, `C` of
`46341 * 46341` cells, `C` distinct from the inputs, flat indices of the last
rows and columns wrap around to negative values on `int`, and `mm` does not
return. -/
theorem mm_overflows :
    Block overflowHeap 1 (46341 * 46341) ∧ Block overflowHeap 2 (46341 * 46341) ∧
      Block overflowHeap 3 (46341 * 46341) ∧ (1 : Ptr) ≠ 3 ∧ (2 : Ptr) ≠ 3 ∧
      mm overflowHeap 1 2 3 46341 = none :=
  ⟨⟨by decide, List.length_replicate _ _⟩, ⟨by decide, List.length_replicate _ _⟩,
    ⟨by decide, List.length_replicate _ _⟩, by decide, by decide, mm_overflow overflowHeap 1 2 3⟩

/-- C8, as amended: for every `n` with `n * n ≤ INT_MAX` and all allocated
inputs `A`, `B` of `n * n` cells, when the scratch allocations succeed the
four routines `mm`, `mm_omp`, `mmT` and `mmT_omp` return and leave the same
block `C`, cell for cell, whatever the arithmetic on `double` does. -/
theorem mm_variants_agree (h : Heap α) (A B C : Ptr) (n : Nat) (B2 B2' : Ptr)
    (junk junk' : Nat → α) (hn : (n : Int) * n ≤ INT_MAX) (h2 : B2 ≠ NULL) (h2' : B2' ≠ NULL)
    (hAC : A ≠ C) (hBC : B ≠ C)
    (hA2 : B2 ≠ A) (hB2 : B2 ≠ B) (hC2 : B2 ≠ C)
    (hA2' : B2' ≠ A) (hB2' : B2' ≠ B) (hC2' : B2' ≠ C)
    (hA : Block h A (n * n)) (hB : Block h B (n * n)) (hC : Block h C (n * n)) :
    ∃ h1 h2 h3 h4, mm h A B C (n : Int) = some h1 ∧ mm_omp h A B C (n : Int) = some h2 ∧
      mmT h A B C (n : Int) B2 junk = some h3 ∧ mmT_omp h A B C (n : Int) B2' junk' = some h4 ∧
      h2 C = h1 C ∧ h3 C = h1 C ∧ h4 C = h1 C := by
  have hn' := bound_nat n hn
  obtain ⟨h1, hh1, -, hl1, hc1⟩ := mm_fill h A B C n hn' hAC hBC hA hB hC
  obtain ⟨h3, hh3, -, -, hl3, hc3⟩ :=
    mmT_fill h A B C n B2 junk hn' h2 hAC hA2 hB2 hC2 hA hB hC
  obtain ⟨h4, hh4, -, -, hl4, hc4⟩ :=
    mmT_fill h A B C n B2' junk' hn' h2' hAC hA2' hB2' hC2' hA hB hC
  refine ⟨h1, h1, h3, h4, hh1, hh1, hh3, hh4, rfl, ?_, ?_⟩
  · exact block_ext _ _ n hl3 hl1 (fun i j hi hj => by rw [hc3 i j hi hj, hc1 i j hi hj])
  · exact block_ext _ _ n hl4 hl1 (fun i j hi hj => by rw [hc4 i j hi hj, hc1 i j hi hj])

/-- C6, witness: transposing block `2` of the scenario heap into block `3`. -/
theorem transpose_correct_witness :
    ∃ h', transpose scenarioHeap 2 3 ((2 : Nat) : Int) = some h' ∧
      (∀ i j, i < 2 → j < 2 →
        ∃ x, (scenarioHeap 2)[i * 2 + j]? = some x ∧ (h' 3)[j * 2 + i]? = some x) ∧
      h' 2 = scenarioHeap 2 :=
  transpose_correct scenarioHeap 2 3 2 (by decide) (by decide) ⟨by decide, rfl⟩ ⟨by decide, rfl⟩

/-- C8, witness: the four routines on the scenario heap, the scratch blocks
being blocks `4` and `5` with contents `7` and `9`. -/
theorem mm_variants_agree_witness :
    ∃ h1 h2 h3 h4, mm scenarioHeap 1 2 3 ((2 : Nat) : Int) = some h1 ∧
      mm_omp scenarioHeap 1 2 3 ((2 : Nat) : Int) = some h2 ∧
      mmT scenarioHeap 1 2 3 ((2 : Nat) : Int) 4 (fun _ => 7) = some h3 ∧
      mmT_omp scenarioHeap 1 2 3 ((2 : Nat) : Int) 5 (fun _ => 9) = some h4 ∧
      h2 3 = h1 3 ∧ h3 3 = h1 3 ∧ h4 3 = h1 3 :=
  mm_variants_agree scenarioHeap 1 2 3 2 4 5 (fun _ => 7) (fun _ => 9) (by decide) (by decide)
    (by decide) (by decide) (by decide) (by decide) (by decide) (by decide) (by decide)
    (by decide) (by decide) ⟨by decide, rfl⟩ ⟨by decide, rfl⟩ ⟨by decide, rfl⟩

/-- C8, counterexample: with `n = 46341`, allocated blocks of `46341 * 46341`
cells and successful scratch allocations, neither the direct nor the
transposed variant returns, so there are no output buffers to compare. -/
theorem mm_variants_overflow :
    Block overflowHeap 1 (46341 * 46341) ∧ Block overflowHeap 2 (46341 * 46341) ∧
      Block overflowHeap 3 (46341 * 46341) ∧ (4 : Ptr) ≠ NULL ∧
      mm overflowHeap 1 2 3 46341 = none ∧
      mmT overflowHeap 1 2 3 46341 4 (fun _ => 0) = none :=
  ⟨⟨by decide, List.length_replicate _ _⟩, ⟨by decide, List.length_replicate _ _⟩,
    ⟨by decide, List.length_replicate _ _⟩, by decide, mm_overflow overflowHeap 1 2 3,
    mmT_overflow overflowHeap 1 2 3 4 (fun _ => 0)⟩

/-- With the identity as left factor, the accumulation of a dot product
returns the entry of the right factor, given the four unit laws on the
entries of the right factor. -/
theorem dotProduct_identity [One α] (a b : List α) (n i j : Nat) (hi : i < n) (hj : j < n)
    (hb : b.length = n * n)
    (hid : ∀ k, k < n → a[i * n + k]? = some (if i = k then 1 else 0))
    (hzm : ∀ x ∈ b, (0 : α) * x = 0) (hom : ∀ x ∈ b, (1 : α) * x = x)
    (hza : ∀ x ∈ b, (0 : α) + x = x) (haz : ∀ x ∈ b, x + (0 : α) = x)
    (h00 : (0 : α) + 0 = 0) :
    dotProduct a b n i j = b.getD (i * n + j) 0 := by
  have hmem : ∀ k, k < n → b.getD (k * n + j) 0 ∈ b := by
    intro k hk
    have hlt : k * n + j < b.length := by rw [hb]; exact idx_lt n k j hk hj
    rw [List.getD_eq_getElem?_getD, List.getElem?_eq_getElem hlt, Option.getD_some]
    exact List.getElem_mem hlt
  have key : ∀ m, m ≤ n →
      (List.range m).foldl (fun dot k => dot + a.getD (i * n + k) 0 * b.getD (k * n + j) 0) 0 =
        if i < m then b.getD (i * n + j) 0 else 0 := by
    intro m
    induction m with
    | zero => intro _; rfl
    | succ m ih =>
      intro hm
      rw [List.range_succ, List.foldl_append, ih (by omega)]
      simp only [List.foldl_cons, List.foldl_nil, List.getD_eq_getElem?_getD a, hid m (by omega),
        Option.getD_some]
      rcases Nat.lt_trichotomy i m with h | h | h
      · rw [if_pos h, if_neg (by omega), if_pos (by omega), hzm _ (hmem m (by omega)),
          haz _ (hmem i hi)]
      · subst h
        rw [if_neg (by omega), if_pos rfl, if_pos (by omega), hom _ (hmem i hi),
          hza _ (hmem i hi)]
      · rw [if_neg (by omega), if_neg (by omega), if_neg (by omega), hzm _ (hmem m (by omega)),
          h00]
  rw [dotProduct, key n (le_refl n), if_pos hi]

/-- C9, as amended: for every `n` with `n * n ≤ INT_MAX` and every allocated
`n * n` matrix `B` whose entries `x` satisfy `0 * x = 0`, `1 * x = x`,
`0 + x = x` and `x + 0 = x` (finite values), when `A` is the `n * n` identity
matrix and the scratch allocation succeeds, both `mm` and `mmT` return and
leave `C = B`. -/
theorem mm_identity [One α] (h : Heap α) (A B C : Ptr) (n : Nat) (B2 : Ptr) (junk : Nat → α)
    (hn : (n : Int) * n ≤ INT_MAX) (h2 : B2 ≠ NULL)
    (hAC : A ≠ C) (hBC : B ≠ C) (hA2 : B2 ≠ A) (hB2 : B2 ≠ B) (hC2 : B2 ≠ C)
    (hA : Block h A (n * n)) (hB : Block h B (n * n)) (hC : Block h C (n * n))
    (hid : ∀ i k, i < n → k < n → (h A)[i * n + k]? = some (if i = k then 1 else 0))
    (hzm : ∀ x ∈ h B, (0 : α) * x = 0) (hom : ∀ x ∈ h B, (1 : α) * x = x)
    (hza : ∀ x ∈ h B, (0 : α) + x = x) (haz : ∀ x ∈ h B, x + (0 : α) = x)
    (h00 : (0 : α) + 0 = 0) :
    ∃ h1 h2, mm h A B C (n : Int) = some h1 ∧ mmT h A B C (n : Int) B2 junk = some h2 ∧
      h1 C = h B ∧ h2 C = h B := by
  have hn' := bound_nat n hn
  obtain ⟨h1, hh1, -, hl1, hc1⟩ := mm_fill h A B C n hn' hAC hBC hA hB hC
  obtain ⟨s2, hh2, -, -, hl2, hc2⟩ :=
    mmT_fill h A B C n B2 junk hn' h2 hAC hA2 hB2 hC2 hA hB hC
  have hcell : ∀ i j, i < n → j < n →
      some (dotProduct (h A) (h B) n i j) = (h B)[i * n + j]? := by
    intro i j hi hj
    have hlt : i * n + j < (h B).length := by rw [hB.2]; exact idx_lt n i j hi hj
    rw [dotProduct_identity (h A) (h B) n i j hi hj hB.2 (fun k hk => hid i k hi hk) hzm hom hza
      haz h00, List.getD_eq_getElem?_getD, List.getElem?_eq_getElem hlt, Option.getD_some]
  refine ⟨h1, s2, hh1, hh2, ?_, ?_⟩
  · exact block_ext _ _ n hl1 hB.2 (fun i j hi hj => by rw [hc1 i j hi hj, hcell i j hi hj])
  · exact block_ext _ _ n hl2 hB.2 (fun i j hi hj => by rw [hc2 i j hi hj, hcell i j hi hj])

/-- C9, witness: `n = 2`, `A = [[1,0],[0,1]]`, `B = [[1,2],[3,4]]` give
`C = [[1,2],[3,4]]` with both variants. -/
theorem mm_identity_witness :
    ∃ h1 h2, mm scenarioHeap 1 2 3 ((2 : Nat) : Int) = some h1 ∧
      mmT scenarioHeap 1 2 3 ((2 : Nat) : Int) 4 (fun _ => 7) = some h2 ∧
      h1 3 = [1, 2, 3, 4] ∧ h2 3 = [1, 2, 3, 4] :=
  mm_identity scenarioHeap 1 2 3 2 4 (fun _ => 7) (by decide) (by decide) (by decide)
    (by decide) (by decide) (by decide) (by decide) ⟨by decide, rfl⟩ ⟨by decide, rfl⟩
    ⟨by decide, rfl⟩
    (by
      intro i k hi hk
      interval_cases i <;> interval_cases k <;> rfl)
    (fun x _ => zero_mul x) (fun x _ => one_mul x) (fun x _ => zero_add x)
    (fun x _ => add_zero x) (add_zero 0)

/-- The row of a flat index. -/
theorem flat_div (n i j : Nat) (hj : j < n) : (i * n + j) / n = i := by
  have hn : 0 < n := by omega
  rw [Nat.add_comm, Nat.add_mul_div_right _ _ hn, Nat.div_eq_of_lt hj, Nat.zero_add]

/-- The column of a flat index. -/
theorem flat_mod (n i j : Nat) (hj : j < n) : (i * n + j) % n = j := by
  rw [Nat.add_comm, Nat.add_mul_mod_self_right, Nat.mod_eq_of_lt hj]

/-- C9, counterexample: with `n = 46341`, `A` the identity matrix, `B` a
matrix of zeros and a successful scratch allocation, neither `mm` nor `mmT`
returns, so `C = B` is not reached. -/
theorem mm_identity_overflow :
    Block overflowIdentityHeap 1 (46341 * 46341) ∧
      Block overflowIdentityHeap 2 (46341 * 46341) ∧
      Block overflowIdentityHeap 3 (46341 * 46341) ∧
      (∀ i k, i < 46341 → k < 46341 →
        (overflowIdentityHeap 1)[i * 46341 + k]? = some (if i = k then 1 else 0)) ∧
      (∀ x ∈ overflowIdentityHeap 2, x = 0) ∧ (4 : Ptr) ≠ NULL ∧
      mm overflowIdentityHeap 1 2 3 46341 = none ∧
      mmT overflowIdentityHeap 1 2 3 46341 4 (fun _ => 0) = none := by
  refine ⟨⟨by decide, ?_⟩, ⟨by decide, List.length_replicate _ _⟩,
    ⟨by decide, List.length_replicate _ _⟩, ?_, ?_, by decide,
    mm_overflow overflowIdentityHeap 1 2 3, mmT_overflow overflowIdentityHeap 1 2 3 4 _⟩
  · show ((List.range (overflowDim * overflowDim)).map
      (fun idx => if idx / overflowDim = idx % overflowDim then (1 : ℚ) else 0)).length = _
    rw [List.length_map, List.length_range]
    rfl
  · intro i k hi hk
    show ((List.range (overflowDim * overflowDim)).map
      (fun idx => if idx / overflowDim = idx % overflowDim then (1 : ℚ) else 0))[
        i * 46341 + k]? = _
    have hlt : i * 46341 + k < overflowDim * overflowDim := idx_lt 46341 i k hi hk
    rw [List.getElem?_map, List.getElem?_range hlt, Option.map_some']
    have hd : (i * 46341 + k) / overflowDim = i := flat_div 46341 i k hk
    have hm : (i * 46341 + k) % overflowDim = k := flat_mod 46341 i k hk
    simp only [hd, hm]
  · intro x hx
    exact List.eq_of_mem_replicate hx

end heap

/-! ## Accesses stay inside the blocks -/

section safety

variable {α : Type}

/-- A loop over a bound `n ≤ 0` runs no pass. -/
theorem forLoopM_nonpos {σ : Type} (n : Int) (hn : n ≤ 0) (body : Int → σ → Option σ) (s : σ) :
    forLoopM n body s = some s := by
  have h0 : n.toNat = 0 := by omega
  simp [forLoopM, h0]

/-- While `n * n` fits the `int`, the flat index of a row and a column in
`[0, n)` is computed without wrap-around and lies in `[0, n * n)`. -/
theorem flat_index_bounds (n i j : Int) (hn : n * n ≤ INT_MAX) (hi0 : 0 ≤ i) (hi : i < n)
    (hj0 : 0 ≤ j) (hj : j < n) :
    iadd (imul i n) j = i * n + j ∧ 0 ≤ i * n + j ∧ i * n + j < n * n := by
  have hn0 : 0 ≤ n := by omega
  have h0 : 0 ≤ i * n := mul_nonneg hi0 hn0
  have h1 : (i + 1) * n ≤ n * n := mul_le_mul_of_nonneg_right (by omega) hn0
  have h2 : (i + 1) * n = i * n + n := by ring
  unfold INT_MAX at hn
  have h3 : imul i n = i * n := int32_eq _ (by omega) (by omega)
  refine ⟨?_, by omega, by omega⟩
  unfold iadd
  rw [h3]
  exact int32_eq _ (by omega) (by omega)

/-- A read at a flat index of an allocated block of `n * n` cells succeeds. -/
theorem read_sized (n : Nat) (hn : n * n ≤ 2147483647) (ps : List Ptr) (h : Heap α)
    (hs : Sized n ps h) (p : Ptr) (hp : p ∈ ps) (i j : Nat) (hi : i < n) (hj : j < n) :
    ∃ x, h.read p (iadd (imul (i : Int) (n : Int)) (j : Int)) = some x := by
  have hlt : i * n + j < (h p).length := by rw [(hs p hp).2]; exact idx_lt n i j hi hj
  exact ⟨(h p)[i * n + j], by
    rw [Heap.read_idx h p i n j (hs p hp).1 hi hj hn, List.getElem?_eq_getElem hlt]⟩

/-- A write inside an allocated block keeps every block allocated and at its
size. -/
theorem update_sized (n : Nat) (ps : List Ptr) (h : Heap α) (hs : Sized n ps h) (p : Ptr)
    (x : Nat) (v : α) : Sized n ps (Function.update h p ((h p).set x v)) := by
  intro q hq
  refine ⟨(hs q hq).1, ?_⟩
  by_cases hqp : q = p
  · subst hqp
    rw [Function.update_same, List.length_set]
    exact (hs q hq).2
  · rw [Function.update_noteq hqp]
    exact (hs q hq).2

/-- A write at a flat index of an allocated block of `n * n` cells succeeds
and keeps every block at its size. -/
theorem write_sized (n : Nat) (hn : n * n ≤ 2147483647) (ps : List Ptr) (h : Heap α)
    (hs : Sized n ps h) (p : Ptr) (hp : p ∈ ps) (i j : Nat) (hi : i < n) (hj : j < n) (v : α) :
    ∃ h', h.write p (iadd (imul (i : Int) (n : Int)) (j : Int)) v = some h' ∧ Sized n ps h' := by
  have hlt : i * n + j < (h p).length := by rw [(hs p hp).2]; exact idx_lt n i j hi hj
  exact ⟨_, Heap.write_idx h p i n j v (hs p hp).1 hi hj hn hlt, update_sized n ps h hs p _ v⟩

/-- A loop nest whose cell bodies succeed and keep the blocks at their size
succeeds and keeps the blocks at their size. -/
theorem nest_sized (n : Nat) (ps : List Ptr) (cell : Int → Int → Heap α → Option (Heap α))
    (hcell : ∀ i j h, i < n → j < n → Sized n ps h →
      ∃ h', cell (i : Int) (j : Int) h = some h' ∧ Sized n ps h')
    (h : Heap α) (hs : Sized n ps h) :
    ∃ h', forLoopM (n : Int) (fun i h => forLoopM (n : Int) (fun j h => cell i j h) h) h =
      some h' ∧ Sized n ps h' :=
  forLoopM_inv n _ (fun _ h => Sized n ps h) h hs (fun i t hi ht =>
    forLoopM_inv n _ (fun _ h => Sized n ps h) t ht (fun j u hj hu => hcell i j u hi hj hu))

/-- The transposition succeeds on allocated blocks of `n * n` cells, aliased
or not. -/
theorem transpose_sized (n : Nat) (hn : n * n ≤ 2147483647) (ps : List Ptr) (A B : Ptr)
    (hA : A ∈ ps) (hB : B ∈ ps) (h : Heap α) (hs : Sized n ps h) :
    ∃ h', transpose h A B (n : Int) = some h' ∧ Sized n ps h' := by
  refine nest_sized n ps (fun i j h => do
      let v ← h.read A (iadd (imul i n) j)
      h.write B (iadd (imul j n) i) v) ?_ h hs
  intro i j t hi hj ht
  obtain ⟨x, hx⟩ := read_sized n hn ps t ht A hA i j hi hj
  simp only [Option.bind_eq_bind, hx, Option.some_bind]
  exact write_sized n hn ps t ht B hB j i hj hi x

/-- Sizes known for a list of blocks are known for the blocks of a sublist. -/
theorem Sized.mono {m : Nat} {ps qs : List Ptr} {h : Heap α} (hs : Sized m ps h)
    (hsub : ∀ q ∈ qs, q ∈ ps) : Sized m qs h :=
  fun q hq => hs q (hsub q hq)

/-- A successful allocation for an `n` by `n` matrix adds an allocated block
of that size and keeps the others. -/
theorem malloc_sized (n : Int) (hn : n * n ≤ INT_MAX) (ps : List Ptr) (h : Heap α)
    (hs : Sized n.natAbs ps h) (p : Ptr) (hp : p ≠ NULL) (junk : Nat → α) :
    Sized n.natAbs (p :: ps) (malloc h p (matrix_bytes n) junk) := by
  intro q hq
  by_cases hqp : q = p
  · subst hqp
    exact malloc_block h q n junk hp hn
  · rw [Block, malloc_other h p _ junk q hqp]
    rcases List.mem_cons.mp hq with h1 | h1
    · exact absurd h1 hqp
    · exact hs q h1

/-- Freeing a block that is not in the list keeps the listed blocks. -/
theorem free_sized (m : Nat) (ps : List Ptr) (h : Heap α) (hs : Sized m ps h) (p : Ptr)
    (hp : p ∉ ps) : Sized m ps (free h p) := by
  intro q hq
  have hqp : q ≠ p := fun e => hp (e ▸ hq)
  rw [Block, free_other h p q hqp]
  exact hs q hq

/-- For `n ≤ 0` the transposition runs no pass and returns the heap as it is. -/
theorem transpose_nonpos (n : Int) (hn : n ≤ 0) (h : Heap α) (A B : Ptr) :
    transpose h A B n = some h := by
  unfold transpose
  exact forLoopM_nonpos n hn _ h

variable [Zero α] [Add α] [Mul α]

/-- For `n ≤ 0` the direct multiply runs no pass and returns the heap as it
is. -/
theorem mm_nonpos (n : Int) (hn : n ≤ 0) (h : Heap α) (A B C : Ptr) :
    mm h A B C n = some h := by
  unfold mm
  exact forLoopM_nonpos n hn _ h

/-- For `n ≤ 0` the transposed multiply allocates and frees its scratch
block and runs no pass. -/
theorem mmT_nonpos (n : Int) (hn : n ≤ 0) (h : Heap α) (A B C B2 : Ptr) (junk : Nat → α) :
    mmT h A B C n B2 junk = some (free (malloc h B2 (matrix_bytes n) junk) B2) := by
  unfold mmT
  simp only [Option.bind_eq_bind]
  rw [transpose_nonpos n hn, Option.some_bind, forLoopM_nonpos n hn, Option.some_bind]
  rfl

/-- A dot-product loop whose reads succeed returns a value. -/
theorem dot_loop_some (n : Nat) (rdA rdB : Int → Option α)
    (hA : ∀ k, k < n → ∃ x, rdA (k : Int) = some x)
    (hB : ∀ k, k < n → ∃ x, rdB (k : Int) = some x) :
    ∃ d, forLoopM (n : Int) (fun k dot => do
      let a ← rdA k
      let b ← rdB k
      pure (dot + a * b)) (0 : α) = some d := by
  obtain ⟨d, hd, -⟩ := forLoopM_inv n (fun k dot => do
      let a ← rdA k
      let b ← rdB k
      pure (dot + a * b)) (fun _ _ => True) (0 : α) trivial (fun k dot hk _ => by
        obtain ⟨x, hx⟩ := hA k hk
        obtain ⟨y, hy⟩ := hB k hk
        exact ⟨dot + x * y, by simp only [Option.bind_eq_bind, hx, hy, Option.some_bind]; rfl,
          trivial⟩)
  exact ⟨d, hd⟩

/-- The direct multiply succeeds on allocated blocks of `n * n` cells, aliased
or not. -/
theorem mm_sized (n : Nat) (hn : n * n ≤ 2147483647) (ps : List Ptr) (A B C : Ptr)
    (hA : A ∈ ps) (hB : B ∈ ps) (hC : C ∈ ps) (h : Heap α) (hs : Sized n ps h) :
    ∃ h', mm h A B C (n : Int) = some h' ∧ Sized n ps h' := by
  refine nest_sized n ps (fun i j h => do
      let dot ← forLoopM n (fun k dot => do
        let a ← h.read A (iadd (imul i n) k)
        let b ← h.read B (iadd (imul k n) j)
        pure (dot + a * b)) (0 : α)
      h.write C (iadd (imul i n) j) dot) ?_ h hs
  intro i j t hi hj ht
  obtain ⟨d, hd⟩ := dot_loop_some n (fun k => t.read A (iadd (imul (i : Int) n) k))
    (fun k => t.read B (iadd (imul k n) (j : Int)))
    (fun k hk => read_sized n hn ps t ht A hA i k hi hk)
    (fun k hk => read_sized n hn ps t ht B hB k j hk hj)
  simp only [Option.bind_eq_bind] at hd ⊢
  rw [hd, Option.some_bind]
  exact write_sized n hn ps t ht C hC i j hi hj d

/-- The multiply loop nest of the transposed variant succeeds on allocated
blocks of `n * n` cells. -/
theorem mmT_nest_sized (n : Nat) (hn : n * n ≤ 2147483647) (ps : List Ptr) (A B2 C : Ptr)
    (hA : A ∈ ps) (hB2 : B2 ∈ ps) (hC : C ∈ ps) (h : Heap α) (hs : Sized n ps h) :
    ∃ h', forLoopM (n : Int) (fun i h =>
      forLoopM (n : Int) (fun j h => do
        let dot ← forLoopM n (fun k dot => do
          let a ← h.read A (iadd (imul i n) k)
          let b ← h.read B2 (iadd (imul j n) k)
          pure (dot + a * b)) (0 : α)
        h.write C (iadd (imul i n) j) dot) h) h = some h' ∧ Sized n ps h' := by
  refine nest_sized n ps (fun i j h => do
      let dot ← forLoopM n (fun k dot => do
        let a ← h.read A (iadd (imul i n) k)
        let b ← h.read B2 (iadd (imul j n) k)
        pure (dot + a * b)) (0 : α)
      h.write C (iadd (imul i n) j) dot) ?_ h hs
  intro i j t hi hj ht
  obtain ⟨d, hd⟩ := dot_loop_some n (fun k => t.read A (iadd (imul (i : Int) n) k))
    (fun k => t.read B2 (iadd (imul (j : Int) n) k))
    (fun k hk => read_sized n hn ps t ht A hA i k hi hk)
    (fun k hk => read_sized n hn ps t ht B2 hB2 j k hj hk)
  simp only [Option.bind_eq_bind] at hd ⊢
  rw [hd, Option.some_bind]
  exact write_sized n hn ps t ht C hC i j hi hj d

/-- The transposed multiply succeeds on allocated blocks of `n * n` cells
when its scratch allocation succeeds, and keeps the blocks when the scratch
block is a fresh one. -/
theorem mmT_sized (n : Nat) (hn : n * n ≤ 2147483647) (A B C B2 : Ptr) (junk : Nat → α)
    (h2 : B2 ≠ NULL) (h : Heap α) (hs : Sized n [A, B, C] h) :
    ∃ h', mmT h A B C (n : Int) B2 junk = some h' ∧
      (B2 ≠ A → B2 ≠ B → B2 ≠ C → Sized n [A, B, C] h') := by
  have hnI : (n : Int) * n ≤ INT_MAX := by
    unfold INT_MAX
    exact_mod_cast hn
  have hm : Sized n [A, B, C, B2] (malloc h B2 (matrix_bytes n) junk) := by
    have hs' : Sized (n : Int).natAbs [A, B, C] h := by rwa [Int.natAbs_ofNat]
    have := malloc_sized (n : Int) hnI [A, B, C] h hs' B2 h2 junk
    rw [Int.natAbs_ofNat] at this
    exact this.mono (fun q hq => by
      simp only [List.mem_cons, List.mem_singleton, List.not_mem_nil, or_false] at hq ⊢
      tauto)
  obtain ⟨s2, htr, hs2⟩ := transpose_sized n hn [A, B, C, B2] B B2 (by simp) (by simp) _ hm
  obtain ⟨h3, hnest, hs3⟩ := mmT_nest_sized n hn [A, B, C, B2] A B2 C (by simp) (by simp)
    (by simp) s2 hs2
  refine ⟨free h3 B2, ?_, fun hA hB hC => ?_⟩
  · unfold mmT
    simp only [Option.bind_eq_bind] at hnest ⊢
    rw [htr, Option.some_bind, hnest, Option.some_bind]
    rfl
  · refine free_sized n [A, B, C] h3 (hs3.mono (fun q hq => by
      simp only [List.mem_cons, List.mem_singleton, List.not_mem_nil, or_false] at hq ⊢
      tauto)) B2 (fun hq => ?_)
    simp only [List.mem_cons, List.mem_singleton, List.not_mem_nil, or_false] at hq
    rcases hq with e | e | e
    · exact hA e
    · exact hB e
    · exact hC e

/-- C19, as amended: while `n * n ≤ INT_MAX`, every flat index `i * n + j` of
a row and a column in `[0, n)` is computed on `int` without wrap-around and
lies in `[0, n * n)`; a read or a write of an allocated block of `n * n` cells
at such an index is in range, and `transpose`, `mm` and (when its allocation
succeeds) `mmT` run on such blocks without any out-of-range access. For
`n ≤ 0` the loops run no pass and `C` is left unchanged. -/
theorem accesses_in_range (n : Int) :
    (n * n ≤ INT_MAX →
      (∀ i j : Int, 0 ≤ i → i < n → 0 ≤ j → j < n →
        iadd (imul i n) j = i * n + j ∧ 0 ≤ iadd (imul i n) j ∧ iadd (imul i n) j < n * n) ∧
      (∀ (h : Heap α) (p : Ptr) (i j : Int) (v : α), Block h p (n * n).toNat →
        0 ≤ i → i < n → 0 ≤ j → j < n →
        (h.read p (iadd (imul i n) j)).isSome ∧ (h.write p (iadd (imul i n) j) v).isSome) ∧
      (∀ (h : Heap α) (A B C B2 : Ptr) (junk : Nat → α),
        Block h A (n * n).toNat → Block h B (n * n).toNat → Block h C (n * n).toNat →
        B2 ≠ NULL →
        (transpose h A B n).isSome ∧ (mm h A B C n).isSome ∧
          (mmT h A B C n B2 junk).isSome)) ∧
    (n ≤ 0 → ∀ (h : Heap α) (A B C B2 : Ptr) (junk : Nat → α),
      transpose h A B n = some h ∧ mm h A B C n = some h ∧
        ∃ h', mmT h A B C n B2 junk = some h' ∧ (B2 ≠ C → h' C = h C)) := by
  refine ⟨fun hn => ⟨fun i j hi0 hi hj0 hj => ?_, ?_, ?_⟩, ?_⟩
  · obtain ⟨e, h0, h1⟩ := flat_index_bounds n i j hn hi0 hi hj0 hj
    rw [e]
    exact ⟨rfl, h0, h1⟩
  · intro h p i j v hb hi0 hi hj0 hj
    obtain ⟨e, h0, h1⟩ := flat_index_bounds n i j hn hi0 hi hj0 hj
    rw [e]
    generalize i * n + j = idx at h0 h1
    obtain ⟨hp, hlen⟩ := hb
    generalize n * n = cells at hlen h1
    have hlt : idx.toNat < (h p).length := by omega
    constructor
    · rw [Heap.read, if_neg hp, if_pos h0, List.getElem?_eq_getElem hlt]
      rfl
    · rw [Heap.write, if_pos ⟨hp, h0, hlt⟩]
      rfl
  · intro h A B C B2 junk hA hB hC h2
    rcases le_or_lt 0 n with hn0 | hn0
    · obtain ⟨m, rfl⟩ := Int.eq_ofNat_of_zero_le hn0
      have hcells : ((m : Int) * m).toNat = m * m := by
        rw [← Nat.cast_mul]
        exact Int.toNat_ofNat _
      rw [hcells] at hA hB hC
      have hm := bound_nat m hn
      have hs : Sized m [A, B, C] h := by
        intro q hq
        simp only [List.mem_cons, List.mem_singleton, List.not_mem_nil, or_false] at hq
        rcases hq with rfl | rfl | rfl
        · exact hA
        · exact hB
        · exact hC
      obtain ⟨h1, e1, -⟩ := transpose_sized m hm [A, B, C] A B (by simp) (by simp) h hs
      obtain ⟨s2, e2, -⟩ := mm_sized m hm [A, B, C] A B C (by simp) (by simp) (by simp) h hs
      obtain ⟨h3, e3, -⟩ := mmT_sized m hm A B C B2 junk h2 h hs
      rw [e1, e2, e3]
      exact ⟨rfl, rfl, rfl⟩
    · rw [transpose_nonpos n hn0.le, mm_nonpos n hn0.le, mmT_nonpos n hn0.le]
      exact ⟨rfl, rfl, rfl⟩
  · intro hn h A B C B2 junk
    refine ⟨transpose_nonpos n hn h A B, mm_nonpos n hn h A B C, _,
      mmT_nonpos n hn h A B C B2 junk, fun hne => ?_⟩
    rw [free_other _ _ _ (Ne.symm hne), malloc_other _ _ _ _ _ (Ne.symm hne)]

/-- C19, witness: on the scenario heap with `n = 2` the three routines run
without an out-of-range access, and with `n = -1` they leave `C` as it is. -/
theorem accesses_in_range_witness :
    ((transpose scenarioHeap 2 3 2).isSome ∧ (mm scenarioHeap 1 2 3 2).isSome ∧
      (mmT scenarioHeap 1 2 3 2 4 (fun _ => 7)).isSome) ∧
    (transpose scenarioHeap 2 3 (-1) = some scenarioHeap ∧
      mm scenarioHeap 1 2 3 (-1) = some scenarioHeap ∧
      ∃ h', mmT scenarioHeap 1 2 3 (-1) 4 (fun _ => 7) = some h' ∧
        ((4 : Ptr) ≠ 3 → h' 3 = scenarioHeap 3)) :=
  ⟨⟨(((accesses_in_range (α := ℚ) 2).1 (by decide)).2.2 scenarioHeap 2 3 3 4 (fun _ => 7)
      ⟨by decide, rfl⟩ ⟨by decide, rfl⟩ ⟨by decide, rfl⟩ (by decide)).1,
    (((accesses_in_range (α := ℚ) 2).1 (by decide)).2.2 scenarioHeap 1 2 3 4 (fun _ => 7)
      ⟨by decide, rfl⟩ ⟨by decide, rfl⟩ ⟨by decide, rfl⟩ (by decide)).2⟩,
    ⟨((accesses_in_range (α := ℚ) (-1)).2 (by decide) scenarioHeap 2 3 3 4 (fun _ => 7)).1,
      ((accesses_in_range (α := ℚ) (-1)).2 (by decide) scenarioHeap 1 2 3 4
        (fun _ => 7)).2⟩⟩

/-- C19, counterexample: for `n = 46341` and `i = j = 46340` the `int` holds
the flat index as `-2147479016`, outside `[0, n * n)`, and the read of an
allocated block of `46341 * 46341` cells at that index is out of range. -/
theorem index_out_of_range :
    (0 : Int) ≤ 46340 ∧ (46340 : Int) < 46341 ∧
      iadd (imul 46340 46341) 46340 = -2147479016 ∧
      ¬ (0 ≤ iadd (imul 46340 46341) 46340) ∧
      Block overflowHeap 1 (46341 * 46341) ∧
      overflowHeap.read 1 (iadd (imul 46340 46341) 46340) = none ∧
      (transpose overflowHeap 1 2 46341).isSome = false := by
  refine ⟨by decide, by decide, overflow_index, by decide,
    ⟨by decide, List.length_replicate _ _⟩, read_overflow overflowHeap 1, ?_⟩
  rw [transpose_overflow]
  rfl

end safety

/-! ## The benchmark harness -/

section harness

variable {α : Type}

/-- A write through `NULL` is outside every block. -/
theorem Heap.write_null (h : Heap α) (idx : Int) (v : α) : h.write NULL idx v = none := by
  rw [Heap.write, if_neg (fun hc => hc.1 rfl)]

/-- For `n ≥ 1` the transposition into `NULL` does not return. -/
theorem transpose_null (h : Heap α) (A : Ptr) (n : Int) (hn : 0 < n) :
    transpose h A NULL n = none := by
  unfold transpose
  refine forLoopM_none _ _ _ 0 (by omega) (fun t => ?_)
  refine forLoopM_none _ _ _ 0 (by omega) (fun u => ?_)
  simp only [Option.bind_eq_bind]
  cases u.read A (iadd (imul ((0 : Nat) : Int) n) ((0 : Nat) : Int)) with
  | none => rfl
  | some v => exact Heap.write_null u _ v

variable [Zero α] [Add α] [Mul α]

/-- For `n ≥ 1` the transposed multiply whose allocation fails does not
return. -/
theorem mmT_null (h : Heap α) (A B C : Ptr) (n : Int) (hn : 0 < n) (junk : Nat → α) :
    mmT h A B C n NULL junk = none := by
  unfold mmT
  simp only [Option.bind_eq_bind]
  rw [transpose_null _ _ n hn]
  rfl

/-- A block of `n * n` cells whose cell `i * n + j` holds the dot product of
row `i` and column `j` is the product block. -/
theorem block_eq_product (l a b : List α) (n : Nat) (hl : l.length = n * n)
    (hc : ∀ i j, i < n → j < n → l[i * n + j]? = some (dotProduct a b n i j)) :
    l = productBlock a b n := by
  refine block_ext l _ n hl (by simp [productBlock]) (fun i j hi hj => ?_)
  have hlt : i * n + j < n * n := idx_lt n i j hi hj
  have hn : 0 < n := by omega
  have hdiv : (i * n + j) / n = i := by
    rw [Nat.add_comm, Nat.add_mul_div_right _ _ hn, Nat.div_eq_of_lt hj, Nat.zero_add]
  have hmod : (i * n + j) % n = j := by
    rw [Nat.add_comm, Nat.add_mul_mod_self_right, Nat.mod_eq_of_lt hj]
  rw [hc i j hi hj, productBlock, List.getElem?_map, List.getElem?_range hlt, Option.map_some',
    hdiv, hmod]

/-- The direct multiply leaves the product block in `C` and nothing else
changed. -/
theorem mm_product (h : Heap α) (A B C : Ptr) (n : Nat) (hn : n * n ≤ 2147483647)
    (hAC : A ≠ C) (hBC : B ≠ C)
    (hA : Block h A (n * n)) (hB : Block h B (n * n)) (hC : Block h C (n * n)) :
    ∃ h', mm h A B C (n : Int) = some h' ∧ h' C = productBlock (h A) (h B) n ∧
      ∀ p, p ≠ C → h' p = h p := by
  obtain ⟨h', hh', hfr, hlen, hcells⟩ := mm_fill h A B C n hn hAC hBC hA hB hC
  exact ⟨h', hh', block_eq_product _ _ _ n hlen hcells, hfr⟩

/-- The transposed multiply leaves the product block in `C`, its scratch block
freed, and nothing else changed. -/
theorem mmT_product (h : Heap α) (A B C : Ptr) (n : Nat) (B2 : Ptr) (junk : Nat → α)
    (hn : n * n ≤ 2147483647) (h2 : B2 ≠ NULL)
    (hAC : A ≠ C) (hA2 : B2 ≠ A) (hB2 : B2 ≠ B) (hC2 : B2 ≠ C)
    (hA : Block h A (n * n)) (hB : Block h B (n * n)) (hC : Block h C (n * n)) :
    ∃ h', mmT h A B C (n : Int) B2 junk = some h' ∧ h' C = productBlock (h A) (h B) n ∧
      ∀ p, p ≠ C → p ≠ B2 → h' p = h p := by
  obtain ⟨h', hh', hfr, -, hlen, hcells⟩ :=
    mmT_fill h A B C n B2 junk hn h2 hAC hA2 hB2 hC2 hA hB hC
  exact ⟨h', hh', block_eq_product _ _ _ n hlen hcells, hfr⟩

/-- C12, as amended: for every `n` with `n * n ≤ INT_MAX`, on allocated
blocks `A`, `B`, `C` of `n * n` cells with `C` distinct from the inputs, and
with the scratch allocations of `mmT` and `mmT_omp` succeeding, each of `mm`,
`mm_omp`, `mmT`, `mmT_omp` leaves in `C` the product block, a function of the
contents of `A` and `B` and of `n` only, whatever `C` held before, and leaves
`A` and `B` as they were; run one after the other on the same `C`, as in
`main`, each leaves that same block. -/
theorem output_overwritten (h : Heap α) (A B C : Ptr) (n : Nat) (B2 B2' : Ptr)
    (junk junk' : Nat → α) (hn : (n : Int) * n ≤ INT_MAX) (h2 : B2 ≠ NULL) (h2' : B2' ≠ NULL)
    (hAC : A ≠ C) (hBC : B ≠ C)
    (hA2 : B2 ≠ A) (hB2 : B2 ≠ B) (hC2 : B2 ≠ C)
    (hA2' : B2' ≠ A) (hB2' : B2' ≠ B) (hC2' : B2' ≠ C)
    (hA : Block h A (n * n)) (hB : Block h B (n * n)) (hC : Block h C (n * n)) :
    (∃ r, mm h A B C (n : Int) = some r ∧ r C = productBlock (h A) (h B) n ∧
      r A = h A ∧ r B = h B) ∧
    (∃ r, mm_omp h A B C (n : Int) = some r ∧ r C = productBlock (h A) (h B) n ∧
      r A = h A ∧ r B = h B) ∧
    (∃ r, mmT h A B C (n : Int) B2 junk = some r ∧ r C = productBlock (h A) (h B) n ∧
      r A = h A ∧ r B = h B) ∧
    (∃ r, mmT_omp h A B C (n : Int) B2' junk' = some r ∧ r C = productBlock (h A) (h B) n ∧
      r A = h A ∧ r B = h B) ∧
    (∃ h1 h2 h3 h4, mm h A B C (n : Int) = some h1 ∧ mm_omp h1 A B C (n : Int) = some h2 ∧
      mmT h2 A B C (n : Int) B2 junk = some h3 ∧
      mmT_omp h3 A B C (n : Int) B2' junk' = some h4 ∧
      h1 C = productBlock (h A) (h B) n ∧ h2 C = productBlock (h A) (h B) n ∧
      h3 C = productBlock (h A) (h B) n ∧ h4 C = productBlock (h A) (h B) n ∧
      h4 A = h A ∧ h4 B = h B) := by
  have hm := bound_nat n hn
  obtain ⟨r1, e1, c1, f1⟩ := mm_product h A B C n hm hAC hBC hA hB hC
  obtain ⟨r3, e3, c3, f3⟩ := mmT_product h A B C n B2 junk hm h2 hAC hA2 hB2 hC2 hA hB hC
  obtain ⟨r4, e4, c4, f4⟩ := mmT_product h A B C n B2' junk' hm h2' hAC hA2' hB2' hC2' hA hB hC
  refine ⟨⟨r1, e1, c1, f1 A hAC, f1 B hBC⟩, ⟨r1, e1, c1, f1 A hAC, f1 B hBC⟩,
    ⟨r3, e3, c3, f3 A hAC (Ne.symm hA2), f3 B hBC (Ne.symm hB2)⟩,
    ⟨r4, e4, c4, f4 A hAC (Ne.symm hA2'), f4 B hBC (Ne.symm hB2')⟩, ?_⟩
  have l1 : Block r1 C (n * n) := ⟨hC.1, by simp [c1, productBlock]⟩
  obtain ⟨s2, g2, d2, k2⟩ := mm_product r1 A B C n hm hAC hBC
    ⟨hA.1, by rw [f1 A hAC, hA.2]⟩ ⟨hB.1, by rw [f1 B hBC, hB.2]⟩ l1
  rw [f1 A hAC, f1 B hBC] at d2
  have a2 : s2 A = h A := by rw [k2 A hAC, f1 A hAC]
  have b2 : s2 B = h B := by rw [k2 B hBC, f1 B hBC]
  have l2 : Block s2 C (n * n) := ⟨hC.1, by simp [d2, productBlock]⟩
  obtain ⟨s3, g3, d3, k3⟩ := mmT_product s2 A B C n B2 junk hm h2 hAC hA2 hB2 hC2
    ⟨hA.1, by rw [a2, hA.2]⟩ ⟨hB.1, by rw [b2, hB.2]⟩ l2
  rw [a2, b2] at d3
  have a3 : s3 A = h A := by rw [k3 A hAC (Ne.symm hA2), a2]
  have b3 : s3 B = h B := by rw [k3 B hBC (Ne.symm hB2), b2]
  have l3 : Block s3 C (n * n) := ⟨hC.1, by simp [d3, productBlock]⟩
  obtain ⟨s4, g4, d4, k4⟩ := mmT_product s3 A B C n B2' junk' hm h2' hAC hA2' hB2' hC2'
    ⟨hA.1, by rw [a3, hA.2]⟩ ⟨hB.1, by rw [b3, hB.2]⟩ l3
  rw [a3, b3] at d4
  exact ⟨r1, s2, s3, s4, e1, g2, g3, g4, c1, d2, d3, d4,
    by rw [k4 A hAC (Ne.symm hA2'), a3], by rw [k4 B hBC (Ne.symm hB2'), b3]⟩

/-- C12, witness: the four routines on the scenario heap, alone and one after
the other, with scratch blocks `4` and `5`. -/
theorem output_overwritten_witness :
    (∃ r, mm scenarioHeap 1 2 3 ((2 : Nat) : Int) = some r ∧
      r 3 = productBlock (scenarioHeap 1) (scenarioHeap 2) 2 ∧
      r 1 = scenarioHeap 1 ∧ r 2 = scenarioHeap 2) ∧
    (∃ h1 h2 h3 h4, mm scenarioHeap 1 2 3 ((2 : Nat) : Int) = some h1 ∧
      mm_omp h1 1 2 3 ((2 : Nat) : Int) = some h2 ∧
      mmT h2 1 2 3 ((2 : Nat) : Int) 4 (fun _ => 7) = some h3 ∧
      mmT_omp h3 1 2 3 ((2 : Nat) : Int) 5 (fun _ => 9) = some h4 ∧
      h1 3 = productBlock (scenarioHeap 1) (scenarioHeap 2) 2 ∧
      h2 3 = productBlock (scenarioHeap 1) (scenarioHeap 2) 2 ∧
      h3 3 = productBlock (scenarioHeap 1) (scenarioHeap 2) 2 ∧
      h4 3 = productBlock (scenarioHeap 1) (scenarioHeap 2) 2 ∧
      h4 1 = scenarioHeap 1 ∧ h4 2 = scenarioHeap 2) :=
  ⟨(output_overwritten scenarioHeap 1 2 3 2 4 5 (fun _ => 7) (fun _ => 9) (by decide)
      (by decide) (by decide) (by decide) (by decide) (by decide) (by decide) (by decide)
      (by decide) (by decide) (by decide) ⟨by decide, rfl⟩ ⟨by decide, rfl⟩
      ⟨by decide, rfl⟩).1,
    (output_overwritten scenarioHeap 1 2 3 2 4 5 (fun _ => 7) (fun _ => 9) (by decide)
      (by decide) (by decide) (by decide) (by decide) (by decide) (by decide) (by decide)
      (by decide) (by decide) (by decide) ⟨by decide, rfl⟩ ⟨by decide, rfl⟩
      ⟨by decide, rfl⟩).2.2.2.2⟩

/-- C12, counterexample: with `n = 46341 ≥ 1` and allocated blocks of
`46341 * 46341` cells none of the four routines returns, so none overwrites
`C`; and with `n = 2`, when the scratch allocation fails, `mmT` and `mmT_omp`
do not return either. -/
theorem output_not_overwritten :
    (1 : Int) ≤ 46341 ∧ Block overflowHeap 1 (46341 * 46341) ∧
      Block overflowHeap 2 (46341 * 46341) ∧ Block overflowHeap 3 (46341 * 46341) ∧
      mm overflowHeap 1 2 3 46341 = none ∧ mm_omp overflowHeap 1 2 3 46341 = none ∧
      mmT overflowHeap 1 2 3 46341 4 (fun _ => 0) = none ∧
      mmT_omp overflowHeap 1 2 3 46341 4 (fun _ => 0) = none ∧
      mmT scenarioHeap 1 2 3 2 NULL (fun _ => 0) = none ∧
      mmT_omp scenarioHeap 1 2 3 2 NULL (fun _ => 0) = none :=
  ⟨by decide, ⟨by decide, List.length_replicate _ _⟩, ⟨by decide, List.length_replicate _ _⟩,
    ⟨by decide, List.length_replicate _ _⟩, mm_overflow overflowHeap 1 2 3,
    mm_overflow overflowHeap 1 2 3, mmT_overflow overflowHeap 1 2 3 4 (fun _ => 0),
    mmT_overflow overflowHeap 1 2 3 4 (fun _ => 0),
    mmT_null scenarioHeap 1 2 3 2 (by decide) (fun _ => 0),
    mmT_null scenarioHeap 1 2 3 2 (by decide) (fun _ => 0)⟩

end harness

end Matmul
